import Mathlib

/-!
Verification of the Celestial Unification Framework core
(`src/Python/QCelestial Unification Framework v7.0.py`, with v8.0 as a
cross-check).  The development shallowly embeds:

* `TopologicalPhaseUnionFind` (parent / z2_charge / z4_charge arrays,
  path-compressing `find`, charge-folding `union`) over `List Nat`,
  with NumPy's integer indexing semantics (negative indices alias from
  the end, indices beyond `±n` raise `IndexError`, modelled as `none`).
  The Python `find` recurses without a termination guarantee; it is
  embedded with a fuel parameter of `n + 1`, which is ample for every
  acyclic parent array (the only ones that arise).
* the orthonormal DCT-II / DCT-III pair used by `Simulation.to_dict` /
  `load_from_dict` (`scipy.fftpack.dct/idct` with `norm='ortho'`),
  over real vectors;
* the `Simulation` engine state and its `update` cycle.

Machine floats are modelled as real numbers; all NumPy RNG draws are
explicit oracle parameters (a deterministic function of the seed and of
the draw site), matching the spec's "per-run deterministic random
source".
-/

namespace CUF

/-- NumPy integer indexing into an array of length `n`: indices in
`[0, n)` are used as-is, indices in `[-n, 0)` alias `n + i`, anything
else raises `IndexError` (modelled as `none`). -/
def npIdx (n : Nat) (i : Int) : Option Nat :=
  if 0 ≤ i ∧ i < (n : Int) then some i.toNat
  else if -(n : Int) ≤ i ∧ i < 0 then some ((n : Int) + i).toNat
  else none

/-- Source: `TopologicalPhaseUnionFind.find` (v7.0 lines 76-79).
`find(i): if parent[i] == i: return i; parent[i] = find(parent[i]);
return parent[i]` — path-compressing find on the parent array.  The
Python recursion has no termination guarantee (it would exhaust the
stack on a cyclic parent array), so the embedding takes a fuel
parameter; fuel exhaustion returns `none`.  Returns the updated parent
array and the representative. -/
def findInt : Nat → List Nat → Int → Option (List Nat × Nat)
  | 0, _, _ => none
  | fuel + 1, p, i =>
    match npIdx p.length i with
    | none => none
    | some k =>
      if (p.getD k 0 : Int) = i then some (p, p.getD k 0)
      else
        match findInt fuel p (p.getD k 0 : Int) with
        | none => none
        | some (p₁, r) => some (p₁.set k r, r)

/-- Rewriting form of the recursive equation for `findInt`. -/
lemma findInt_succ (fuel : Nat) (p : List Nat) (i : Int) :
    findInt (fuel + 1) p i =
      match npIdx p.length i with
      | none => none
      | some k =>
        if (p.getD k 0 : Int) = i then some (p, p.getD k 0)
        else
          match findInt fuel p (p.getD k 0 : Int) with
          | none => none
          | some (p₁, r) => some (p₁.set k r, r) := rfl

/-- State of `TopologicalPhaseUnionFind` (v7.0 lines 69-95): a parent
array and the two charge arrays (`z2_charge`, `z4_charge`). -/
structure UF where
  parent : List Nat
  z2 : List Nat
  z4 : List Nat
  deriving Repr, DecidableEq

/-- Source: `TopologicalPhaseUnionFind.__init__` (v7.0 lines 71-74):
`parent = np.arange(n)`, `z2_charge = np.zeros(n)`,
`z4_charge = np.zeros(n)`. -/
def UF.init (n : Nat) : UF :=
  { parent := List.range n
    z2 := List.replicate n 0
    z4 := List.replicate n 0 }

/-- `find` on the union-find state: runs `findInt` with fuel
`n + 1` (sufficient for every acyclic parent array of length `n`) and
threads the compressed parent array back into the state. -/
def UF.find (uf : UF) (i : Int) : Option (UF × Nat) :=
  match findInt (uf.parent.length + 1) uf.parent i with
  | none => none
  | some (p, r) => some ({ uf with parent := p }, r)

/-- Source: `TopologicalPhaseUnionFind.union` (v7.0 lines 81-89):
find both roots (the second `find` sees the parent array as compressed
by the first), and if they differ, hang `root_j` below `root_i` and
fold the charges of `root_j` into `root_i` modulo 2 and modulo 4,
returning `True`; otherwise return `False`.  An `IndexError` inside
either `find` is modelled as `none`. -/
def UF.union (uf : UF) (i j : Int) : Option (UF × Bool) :=
  match uf.find i with
  | none => none
  | some (uf₁, ri) =>
    match uf₁.find j with
    | none => none
    | some (uf₂, rj) =>
      if ri ≠ rj then
        some ({ uf₂ with
                  parent := uf₂.parent.set rj ri
                  z2 := uf₂.z2.set ri ((uf₂.z2.getD ri 0 + uf₂.z2.getD rj 0) % 2)
                  z4 := uf₂.z4.set ri ((uf₂.z4.getD ri 0 + uf₂.z4.getD rj 0) % 4) },
              true)
      else some (uf₂, false)

/-- Source: `TopologicalPhaseUnionFind.add_node` (v7.0 lines 91-95):
appends a fresh singleton whose parent is its own (new) index, with
freshly sampled charges (the RNG draws are passed in explicitly). -/
def UF.add_node (uf : UF) (c2 c4 : Nat) : UF :=
  { parent := uf.parent ++ [uf.parent.length]
    z2 := uf.z2 ++ [c2 % 2]
    z4 := uf.z4 ++ [c4 % 4] }

/-- Reference (non-mutating) root chase used to state properties of
`find`: follow parent pointers for at most `fuel` steps. -/
def chaseD : Nat → List Nat → Nat → Option Nat
  | 0, _, _ => none
  | fuel + 1, p, k =>
    if k < p.length then
      if p.getD k 0 = k then some k else chaseD fuel p (p.getD k 0)
    else none

/-- The representative of node `k` (if it is reachable by following
parent pointers, which holds in every state the code can produce). -/
def UF.rootOf (uf : UF) (k : Nat) : Option Nat :=
  chaseD (uf.parent.length + 1) uf.parent k

lemma npIdx_some_lt {n : Nat} {i : Int} {k : Nat} (h : npIdx n i = some k) : k < n := by
  unfold npIdx at h
  split_ifs at h with h1 h2
  · injection h with h; omega
  · injection h with h; omega

lemma npIdx_inv {n : Nat} {i : Int} {k : Nat} (h : npIdx n i = some k) :
    (0 ≤ i ∧ i = (k : Int)) ∨ (i < 0 ∧ i + (n : Int) = (k : Int)) := by
  unfold npIdx at h
  split_ifs at h with h1 h2
  · injection h with h; exact Or.inl ⟨h1.1, by omega⟩
  · injection h with h; exact Or.inr ⟨h2.2, by omega⟩

lemma npIdx_natCast {n m : Nat} (h : m < n) : npIdx n (m : Int) = some m := by
  unfold npIdx
  rw [if_pos ⟨Int.natCast_nonneg m, by exact_mod_cast h⟩]
  simp

lemma npIdx_oob {n : Nat} {i : Int} (h : (n : Int) ≤ i ∨ i < -(n : Int)) :
    npIdx n i = none := by
  unfold npIdx
  rw [if_neg (by omega), if_neg (by omega)]

lemma getD_set {p : List Nat} {a : Nat} (v k d : Nat) (ha : a < p.length) :
    (p.set a v).getD k d = if k = a then v else p.getD k d := by
  split_ifs with hk
  · subst hk; simp [List.getD_eq_getElem?_getD, List.getElem?_set_self, ha]
  · simp [List.getD_eq_getElem?_getD, List.getElem?_set_ne (Ne.symm hk)]

lemma chaseD_pos {f : Nat} {p : List Nat} {k r : Nat} (h : chaseD f p k = some r) :
    1 ≤ f := by
  cases f with
  | zero => simp [chaseD] at h
  | succ f => omega

lemma chaseD_some_lt {f : Nat} {p : List Nat} {k r : Nat} (h : chaseD f p k = some r) :
    k < p.length := by
  cases f with
  | zero => simp [chaseD] at h
  | succ f =>
    by_contra hk
    unfold chaseD at h
    rw [if_neg hk] at h
    exact Option.noConfusion h

lemma chaseD_mono {f g : Nat} {p : List Nat} {k r : Nat} (hfg : f ≤ g)
    (h : chaseD f p k = some r) : chaseD g p k = some r := by
  induction f generalizing k g with
  | zero => simp [chaseD] at h
  | succ f ih =>
    obtain ⟨g, rfl⟩ : ∃ g', g = g' + 1 := ⟨g - 1, by omega⟩
    unfold chaseD at h ⊢
    split_ifs at h ⊢ with h1 h2
    · exact h
    · exact ih (by omega) h

lemma chaseD_det {f g : Nat} {p : List Nat} {k r s : Nat}
    (h1 : chaseD f p k = some r) (h2 : chaseD g p k = some s) : r = s :=
  Option.some.inj
    ((chaseD_mono (le_max_left f g) h1).symm.trans (chaseD_mono (le_max_right f g) h2))

lemma chaseD_out {f : Nat} {p : List Nat} {k r : Nat} (h : chaseD f p k = some r) :
    r < p.length ∧ p.getD r 0 = r := by
  induction f generalizing k with
  | zero => simp [chaseD] at h
  | succ f ih =>
    unfold chaseD at h
    split_ifs at h with h1 h2
    · injection h with h; subst h; exact ⟨h1, h2⟩
    · exact ih h

lemma chaseD_root {f : Nat} {p : List Nat} {r : Nat} (hr : r < p.length)
    (hroot : p.getD r 0 = r) (hf : 1 ≤ f) : chaseD f p r = some r := by
  obtain ⟨f, rfl⟩ : ∃ f', f = f' + 1 := ⟨f - 1, by omega⟩
  unfold chaseD
  rw [if_pos hr, if_pos hroot]

lemma chaseD_succ_elim {g : Nat} {p : List Nat} {a r : Nat}
    (h : chaseD g p a = some r) (hne : p.getD a 0 ≠ a) :
    ∃ g', g = g' + 1 ∧ chaseD g' p (p.getD a 0) = some r := by
  cases g with
  | zero => simp [chaseD] at h
  | succ g =>
    refine ⟨g, rfl, ?_⟩
    have ha := chaseD_some_lt h
    unfold chaseD at h
    rw [if_pos ha, if_neg hne] at h
    exact h

/-- Writing the (already found) representative `r` into the slot of a
node `a` whose chase ends at `r` preserves the result of every chase:
the single path-compression assignment performed by `find`. -/
lemma chaseD_set_preserve {p : List Nat} {a r g : Nat}
    (ha : chaseD g p a = some r) :
    ∀ f k s, chaseD f p k = some s → chaseD f (p.set a r) k = some s := by
  intro f
  induction f with
  | zero => intro k s h; simp [chaseD] at h
  | succ f ih =>
    intro k s h
    have haL : a < p.length := chaseD_some_lt ha
    have h1 : k < p.length := chaseD_some_lt h
    unfold chaseD at h ⊢
    rw [List.length_set, if_pos h1]
    rw [if_pos h1] at h
    rw [getD_set r k 0 haL]
    by_cases h2 : p.getD k 0 = k
    · rw [if_pos h2] at h
      injection h with h; subst h
      by_cases hka : k = a
      · subst hka
        have hra : r = k := chaseD_det ha (chaseD_root h1 h2 (chaseD_pos ha))
        rw [if_pos rfl, if_pos hra]
      · rw [if_neg hka, if_pos h2]
    · rw [if_neg h2] at h
      by_cases hka : k = a
      · subst hka
        obtain ⟨g', rfl, hg'⟩ := chaseD_succ_elim ha h2
        have hrs : r = s := chaseD_det hg' h
        subst hrs
        rw [if_pos rfl]
        by_cases hra : r = k
        · rw [if_pos hra, hra]
        · rw [if_neg hra]
          obtain ⟨hrlt, hrroot⟩ := chaseD_out ha
          have hf1 : 1 ≤ f := chaseD_pos h
          obtain ⟨f, rfl⟩ : ∃ f', f = f' + 1 := ⟨f - 1, by omega⟩
          unfold chaseD
          rw [List.length_set, if_pos hrlt, getD_set r r 0 haL, if_neg hra, if_pos hrroot]
      · rw [if_neg hka, if_neg h2]
        exact ih _ _ h

/-- Everything `find` guarantees about the parent array: the returned
representative is a root of both the old and the new array, every slot
is either untouched or rewritten to the representative, the set of
roots is unchanged slot by slot, the entry slot now points at the
representative, and the result of every parent chase is preserved. -/
structure FindSpec (fuel : Nat) (p : List Nat) (i : Int) (p' : List Nat) (r : Nat) : Prop where
  len : p'.length = p.length
  mem : ∀ m, p'.getD m 0 = p.getD m 0 ∨ p'.getD m 0 = r
  roots : ∀ m, p'.getD m 0 = m ↔ p.getD m 0 = m
  rlt : r < p.length
  rootP : p.getD r 0 = r
  rootP' : p'.getD r 0 = r
  entry : ∃ k, npIdx p.length i = some k ∧ p'.getD k 0 = r ∧ chaseD fuel p k = some r
  pres : ∀ g m s, chaseD g p m = some s → chaseD g p' m = some s

lemma findInt_spec {fuel : Nat} {p : List Nat} {i : Int} {p' : List Nat} {r : Nat}
    (h : findInt fuel p i = some (p', r)) : FindSpec fuel p i p' r := by
  induction fuel generalizing p i p' r with
  | zero => simp [findInt] at h
  | succ fuel ih =>
    rw [findInt_succ] at h
    split at h
    · exact Option.noConfusion h
    · rename_i k hnp
      have hk : k < p.length := npIdx_some_lt hnp
      by_cases hbase : (p.getD k 0 : Int) = i
      · rw [if_pos hbase] at h
        simp only [Option.some.injEq, Prod.mk.injEq] at h
        obtain ⟨rfl, hr⟩ := h
        have hik : p.getD k 0 = k := by
          rcases npIdx_inv hnp with ⟨hpos, hik⟩ | ⟨hneg, _⟩
          · omega
          · omega
        subst hr
        refine ⟨rfl, fun m => Or.inl rfl, fun m => Iff.rfl, ?_, ?_, ?_, ?_, ?_⟩
        · rw [hik]; exact hk
        · rw [hik]; exact hik
        · rw [hik]; exact hik
        · refine ⟨k, hnp, hik.symm ▸ rfl, ?_⟩
          rw [hik]
          exact chaseD_root hk hik (by omega)
        · intro g m s hg; exact hg
      · rw [if_neg hbase] at h
        split at h
        · exact Option.noConfusion h
        · rename_i p₁ r₁ hrec
          simp only [Option.some.injEq, Prod.mk.injEq] at h
          obtain ⟨rfl, rfl⟩ := h
          obtain ⟨len1, mem1, roots1, rlt1, rootP1, rootP1', entry1, pres1⟩ := ih hrec
          obtain ⟨k₁, hk₁, hent1, hch1⟩ := entry1
          have hk₁eq : k₁ = p.getD k 0 := by
            rcases npIdx_inv hk₁ with ⟨_, hik⟩ | ⟨hneg, _⟩
            · omega
            · omega
          subst hk₁eq
          have hkp₁ : k < p₁.length := len1 ▸ hk
          -- whether the entry slot already holds a root
          have hpk_root_imp : p.getD k 0 = k → r₁ = k := by
            intro hroot
            rw [hroot] at hch1
            exact chaseD_det hch1 (chaseD_root hk hroot (chaseD_pos hch1))
          have hchase : chaseD (fuel + 1) p k = some r₁ := by
            unfold chaseD
            rw [if_pos hk]
            by_cases hroot : p.getD k 0 = k
            · rw [if_pos hroot, hpk_root_imp hroot]
            · rw [if_neg hroot]
              exact chaseD_mono (by omega) hch1
          refine ⟨?_, ?_, ?_, rlt1, rootP1, ?_, ?_, ?_⟩
          · rw [List.length_set]; exact len1
          · intro m
            rw [getD_set r₁ m 0 hkp₁]
            by_cases hm : m = k
            · rw [if_pos hm]; exact Or.inr rfl
            · rw [if_neg hm]; exact mem1 m
          · intro m
            rw [getD_set r₁ m 0 hkp₁]
            by_cases hm : m = k
            · subst hm
              rw [if_pos rfl]
              constructor
              · intro hr₁m
                rw [← hr₁m]; exact rootP1
              · intro hroot
                exact hpk_root_imp hroot
            · rw [if_neg hm]; exact roots1 m
          · rw [getD_set r₁ r₁ 0 hkp₁]
            by_cases hr₁k : r₁ = k
            · rw [if_pos hr₁k]
            · rw [if_neg hr₁k]; exact rootP1'
          · refine ⟨k, hnp, ?_, hchase⟩
            rw [getD_set r₁ k 0 hkp₁, if_pos rfl]
          · intro g m s hg
            have hgp₁ : chaseD g p₁ m = some s := pres1 g m s hg
            have hkroot : chaseD (fuel + 1) p₁ k = some r₁ := pres1 _ _ _ hchase
            exact chaseD_set_preserve hkroot g m s hgp₁

/-- Reduction of `findInt` once the NumPy index of the entry point is
known. -/
lemma findInt_succ_idx {fuel : Nat} {p : List Nat} {i : Int} {k : Nat}
    (hnp : npIdx p.length i = some k) :
    findInt (fuel + 1) p i =
      if (p.getD k 0 : Int) = i then some (p, p.getD k 0)
      else
        match findInt fuel p (p.getD k 0 : Int) with
        | none => none
        | some (p₁, r) => some (p₁.set k r, r) := by
  rw [findInt_succ, hnp]

/-- `findInt` succeeds whenever the plain parent chase does (with the
same fuel budget), and returns the chased representative. -/
lemma findInt_of_chaseD {f : Nat} {p : List Nat} {k r : Nat}
    (h : chaseD f p k = some r) {fuel : Nat} (hf : f ≤ fuel) :
    ∃ p', findInt fuel p (k : Int) = some (p', r) := by
  induction f generalizing k fuel with
  | zero => simp [chaseD] at h
  | succ f ih =>
    have hk : k < p.length := chaseD_some_lt h
    obtain ⟨fuel, rfl⟩ : ∃ g, fuel = g + 1 := ⟨fuel - 1, by omega⟩
    unfold chaseD at h
    rw [if_pos hk] at h
    by_cases hroot : p.getD k 0 = k
    · rw [if_pos hroot] at h
      injection h with h; subst h
      refine ⟨p, ?_⟩
      rw [findInt_succ_idx (npIdx_natCast hk), if_pos (by exact_mod_cast hroot), hroot]
    · rw [if_neg hroot] at h
      obtain ⟨p₁, hp₁⟩ := @ih (p.getD k 0) h fuel (by omega)
      refine ⟨p₁.set k r, ?_⟩
      rw [findInt_succ_idx (npIdx_natCast hk),
        if_neg (by exact_mod_cast (Int.natCast_inj.not.mpr hroot)), hp₁]

/-- All arrays of a union-find state have the same length; true of
every state the code constructs. -/
def UF.WF (uf : UF) : Prop :=
  uf.z2.length = uf.parent.length ∧ uf.z4.length = uf.parent.length

lemma UF.find_elim {uf uf' : UF} {i : Int} {r : Nat} (h : uf.find i = some (uf', r)) :
    uf'.z2 = uf.z2 ∧ uf'.z4 = uf.z4 ∧
    FindSpec (uf.parent.length + 1) uf.parent i uf'.parent r := by
  unfold UF.find at h
  split at h
  · exact Option.noConfusion h
  · rename_i p r' hf
    simp only [Option.some.injEq, Prod.mk.injEq] at h
    obtain ⟨h1, rfl⟩ := h
    subst h1
    exact ⟨rfl, rfl, findInt_spec hf⟩

lemma UF.find_total {uf : UF} {k r : Nat} (h : uf.rootOf k = some r) :
    ∃ uf', uf.find (k : Int) = some (uf', r) ∧ uf'.z2 = uf.z2 ∧ uf'.z4 = uf.z4 := by
  obtain ⟨p', hp'⟩ := findInt_of_chaseD h (le_refl _)
  exact ⟨{ uf with parent := p' }, by unfold UF.find; rw [hp'], rfl, rfl⟩

/-- Case analysis for a successful `union` call: both `find`s
succeeded (the second one on the state compressed by the first), and
either the roots differ and the merge branch ran, or they coincide
and the state is exactly what the two `find`s left behind. -/
lemma UF.union_elim {uf : UF} {i j : Int} {uf' : UF} {b : Bool}
    (h : uf.union i j = some (uf', b)) :
    ∃ uf₁ ri uf₂ rj, uf.find i = some (uf₁, ri) ∧ uf₁.find j = some (uf₂, rj) ∧
      ((ri ≠ rj ∧ b = true ∧
          uf' = { uf₂ with
                    parent := uf₂.parent.set rj ri
                    z2 := uf₂.z2.set ri ((uf₂.z2.getD ri 0 + uf₂.z2.getD rj 0) % 2)
                    z4 := uf₂.z4.set ri ((uf₂.z4.getD ri 0 + uf₂.z4.getD rj 0) % 4) }) ∨
       (ri = rj ∧ b = false ∧ uf' = uf₂)) := by
  unfold UF.union at h
  split at h
  · exact Option.noConfusion h
  · rename_i uf₁ ri hfi
    split at h
    · exact Option.noConfusion h
    · rename_i uf₂ rj hfj
      refine ⟨uf₁, ri, uf₂, rj, hfi, hfj, ?_⟩
      split_ifs at h with hne
      · simp only [Option.some.injEq, Prod.mk.injEq] at h
        obtain ⟨h1, h2⟩ := h
        exact Or.inl ⟨hne, h2.symm, h1.symm⟩
      · simp only [Option.some.injEq, Prod.mk.injEq] at h
        obtain ⟨h1, h2⟩ := h
        exact Or.inr ⟨not_not.mp hne, h2.symm, h1.symm⟩

/-- The total charge currently stored at representatives: the sum of
`z.getD k` over the root slots `k` of the parent array. -/
def repCharge (p z : List Nat) : Nat :=
  ∑ k ∈ Finset.range p.length, if p.getD k 0 = k then z.getD k 0 else 0

lemma sum_getD (l : List Nat) : ∑ k ∈ Finset.range l.length, l.getD k 0 = l.sum := by
  induction l with
  | nil => simp
  | cons a t ih =>
    rw [List.length_cons, Finset.sum_range_succ']
    simp only [List.getD_cons_succ, List.getD_cons_zero, List.sum_cons, ih]
    omega

/-- On an all-singleton parent array the representative charge is just
the total charge of all nodes. -/
lemma repCharge_range {n : Nat} {z : List Nat} (hz : z.length = n) :
    repCharge (List.range n) z = z.sum := by
  subst hz
  unfold repCharge
  rw [List.length_range, ← sum_getD z]
  refine Finset.sum_congr rfl fun k hk => ?_
  rw [Finset.mem_range] at hk
  rw [List.getD_eq_getElem?_getD, List.getElem?_range hk]
  simp

/-- `find` leaves the representative charge of any charge array
unchanged: path compression rewires non-root slots only. -/
lemma repCharge_find {uf uf' : UF} {i : Int} {r : Nat}
    (h : uf.find i = some (uf', r)) (z : List Nat) :
    repCharge uf'.parent z = repCharge uf.parent z := by
  obtain ⟨-, -, spec⟩ := UF.find_elim h
  unfold repCharge
  rw [spec.len]
  refine Finset.sum_congr rfl fun k _ => ?_
  by_cases hk : uf.parent.getD k 0 = k
  · rw [if_pos hk, if_pos ((spec.roots k).mpr hk)]
  · rw [if_neg hk, if_neg (fun hc => hk ((spec.roots k).mp hc))]

lemma sum_peel_two {n : Nat} (f : Nat → Nat) {ri rj : Nat} (hri : ri < n) (hrj : rj < n)
    (hne : ri ≠ rj) :
    ∑ k ∈ Finset.range n, f k
      = f ri + f rj + ∑ k ∈ ((Finset.range n).erase ri).erase rj, f k := by
  rw [← Finset.add_sum_erase _ f (Finset.mem_range.mpr hri)]
  rw [← Finset.add_sum_erase _ f
      (Finset.mem_erase.mpr ⟨fun hc => hne hc.symm, Finset.mem_range.mpr hrj⟩)]
  omega

/-- The single merge assignment: hanging root `rj` below root `ri` and
folding `rj`'s charge into `ri` modulo `m` preserves the representative
charge modulo `m`. -/
lemma repCharge_merge {p z : List Nat} {ri rj : Nat} (hz : z.length = p.length)
    (hrj : rj < p.length) (hne : ri ≠ rj)
    (hrooti : p.getD ri 0 = ri) (hrootj : p.getD rj 0 = rj) (m : Nat) :
    repCharge (p.set rj ri) (z.set ri ((z.getD ri 0 + z.getD rj 0) % m)) % m
      = repCharge p z % m := by
  have hri : ri < p.length := by
    by_contra hcon
    push_neg at hcon
    rw [List.getD_eq_default _ _ (by omega)] at hrooti
    omega
  have hriz : ri < z.length := by omega
  unfold repCharge
  rw [List.length_set]
  rw [sum_peel_two
    (fun k => if (p.set rj ri).getD k 0 = k
      then (z.set ri ((z.getD ri 0 + z.getD rj 0) % m)).getD k 0 else 0) hri hrj hne]
  rw [sum_peel_two (fun k => if p.getD k 0 = k then z.getD k 0 else 0) hri hrj hne]
  have htail : ∀ k ∈ ((Finset.range p.length).erase ri).erase rj,
      (if (p.set rj ri).getD k 0 = k
        then (z.set ri ((z.getD ri 0 + z.getD rj 0) % m)).getD k 0 else 0)
      = (if p.getD k 0 = k then z.getD k 0 else 0) := by
    intro k hk
    rw [Finset.mem_erase, Finset.mem_erase] at hk
    rw [getD_set ri k 0 hrj, if_neg hk.1, getD_set _ k 0 hriz, if_neg hk.2.1]
  rw [Finset.sum_congr rfl htail]
  have hA : (p.set rj ri).getD ri 0 = ri := by
    rw [getD_set ri ri 0 hrj, if_neg hne]; exact hrooti
  have hB : (p.set rj ri).getD rj 0 = ri := by
    rw [getD_set ri rj 0 hrj, if_pos rfl]
  have hC : (z.set ri ((z.getD ri 0 + z.getD rj 0) % m)).getD ri 0
      = (z.getD ri 0 + z.getD rj 0) % m := by
    rw [getD_set _ ri 0 hriz, if_pos rfl]
  simp only [hA, hB, hC, eq_self_iff_true, if_true, if_pos hrooti, if_pos hrootj, if_neg hne]
  rw [Nat.add_zero, Nat.mod_add_mod]

/-- One successful `union` call preserves well-formedness and the
representative charges modulo 2 and modulo 4. -/
lemma union_step_conserve {uf uf' : UF} {i j : Int} {b : Bool}
    (hwf : uf.WF) (h : uf.union i j = some (uf', b)) :
    uf'.WF ∧ repCharge uf'.parent uf'.z2 % 2 = repCharge uf.parent uf.z2 % 2 ∧
      repCharge uf'.parent uf'.z4 % 4 = repCharge uf.parent uf.z4 % 4 := by
  obtain ⟨uf₁, ri, uf₂, rj, hfi, hfj, hcase⟩ := UF.union_elim h
  obtain ⟨hz2a, hz4a, spec1⟩ := UF.find_elim hfi
  obtain ⟨hz2b, hz4b, spec2⟩ := UF.find_elim hfj
  have hlen2 : uf₂.parent.length = uf.parent.length := by rw [spec2.len, spec1.len]
  have hwf₂ : uf₂.WF := by
    unfold UF.WF at hwf ⊢
    rw [hz2b, hz2a, hz4b, hz4a, hlen2]
    exact hwf
  have hrc2 : repCharge uf₂.parent uf.z2 = repCharge uf.parent uf.z2 := by
    rw [repCharge_find hfj, repCharge_find hfi]
  have hrc4 : repCharge uf₂.parent uf.z4 = repCharge uf.parent uf.z4 := by
    rw [repCharge_find hfj, repCharge_find hfi]
  rcases hcase with ⟨hne, -, rfl⟩ | ⟨-, -, rfl⟩
  · -- merge branch
    have hrj : rj < uf₂.parent.length := by rw [spec2.len]; exact spec2.rlt
    have hrootj : uf₂.parent.getD rj 0 = rj := spec2.rootP'
    have hrooti : uf₂.parent.getD ri 0 = ri := by
      rw [spec2.roots ri]
      exact spec1.rootP'
    constructor
    · unfold UF.WF
      simp only [List.length_set]
      exact hwf₂
    constructor
    · rw [hz2b, hz2a]
      rw [repCharge_merge (by rw [hlen2]; exact hwf.1) hrj hne hrooti hrootj 2]
      rw [hrc2]
    · rw [hz4b, hz4a]
      rw [repCharge_merge (by rw [hlen2]; exact hwf.2) hrj hne hrooti hrootj 4]
      rw [hrc4]
  · -- no-merge branch: the state is exactly what the finds produced
    refine ⟨hwf₂, ?_, ?_⟩
    · rw [hz2b, hz2a, hrc2]
    · rw [hz4b, hz4a, hrc4]

/-- The states reachable from `uf₀` by a sequence of (successful)
`union` calls, in the order the simulation issues them. -/
inductive Reach (uf₀ : UF) : UF → Prop
  | refl : Reach uf₀ uf₀
  | union (uf uf' : UF) (i j : Int) (b : Bool) :
      Reach uf₀ uf → uf.union i j = some (uf', b) → Reach uf₀ uf'

lemma Reach.conserve {uf₀ uf : UF} (hwf : uf₀.WF) (h : Reach uf₀ uf) :
    uf.WF ∧ repCharge uf.parent uf.z2 % 2 = repCharge uf₀.parent uf₀.z2 % 2 ∧
      repCharge uf.parent uf.z4 % 4 = repCharge uf₀.parent uf₀.z4 % 4 := by
  induction h with
  | refl => exact ⟨hwf, rfl, rfl⟩
  | union uf uf' i j b hreach hu ih =>
    obtain ⟨ihwf, ih2, ih4⟩ := ih
    obtain ⟨hwf', h2, h4⟩ := union_step_conserve ihwf hu
    exact ⟨hwf', h2.trans ih2, h4.trans ih4⟩

/-- Rewriting form of the recursive equation for `chaseD`. -/
lemma chaseD_succ (fuel : Nat) (p : List Nat) (k : Nat) :
    chaseD (fuel + 1) p k =
      if k < p.length then
        if p.getD k 0 = k then some k else chaseD fuel p (p.getD k 0)
      else none := rfl

lemma chase_one_step {q : List Nat} {j ri : Nat} (hj : j < q.length)
    (hstep : q.getD j 0 = ri) (hne : ri ≠ j) (hroot : q.getD ri 0 = ri)
    (hrilt : ri < q.length) {f : Nat} (hf : 2 ≤ f) : chaseD f q j = some ri := by
  obtain ⟨f, rfl⟩ : ∃ f', f = f' + 1 := ⟨f - 1, by omega⟩
  rw [chaseD_succ, if_pos hj, hstep, if_neg hne]
  exact chaseD_root hrilt hroot (by omega)

lemma chase_two_step {q : List Nat} {j rj ri : Nat} (hj : j < q.length)
    (hjq : q.getD j 0 = rj) (hne2 : rj ≠ j) (hrjq : q.getD rj 0 = ri) (hne : ri ≠ rj)
    (hroot : q.getD ri 0 = ri) (hrilt : ri < q.length) (hrjlt : rj < q.length)
    {f : Nat} (hf : 3 ≤ f) : chaseD f q j = some ri := by
  obtain ⟨f, rfl⟩ : ∃ f', f = f' + 1 := ⟨f - 1, by omega⟩
  rw [chaseD_succ, if_pos hj, hjq, if_neg hne2]
  exact chase_one_step hrjlt hrjq hne hroot hrilt (by omega)

/-- Linking root `rj` below a different root `ri` does not change the
representative of any node that did not have representative `rj`. -/
lemma chaseD_preserve_link {p : List Nat} {ri rj : Nat} (hri : ri < p.length)
    (hrooti : p.getD ri 0 = ri) (hrootj : p.getD rj 0 = rj) (hne : ri ≠ rj) :
    ∀ f m r, chaseD f p m = some r → r ≠ rj → chaseD f (p.set rj ri) m = some r := by
  intro f
  induction f with
  | zero => intro m r h _; simp [chaseD] at h
  | succ f ih =>
    intro m r h hr
    have hm : m < p.length := chaseD_some_lt h
    have hmj : m ≠ rj := by
      intro hc
      subst hc
      have : chaseD (f + 1) p m = some m := chaseD_root hm hrootj (by omega)
      exact hr (chaseD_det h this)
    have hrjlt : rj < p.length := by
      by_cases hc : rj < p.length
      · exact hc
      · rw [List.getD_eq_default _ _ (by omega)] at hrootj
        omega
    unfold chaseD at h ⊢
    rw [if_pos hm] at h
    rw [List.length_set, if_pos hm, getD_set ri m 0 hrjlt, if_neg hmj]
    by_cases hroot : p.getD m 0 = m
    · rw [if_pos hroot] at h ⊢
      exact h
    · rw [if_neg hroot] at h ⊢
      exact ih _ _ h hr

/-- C1 helper: `rootOf` transported through a successful `find`. -/
lemma rootOf_find {uf uf' : UF} {i : Int} {r : Nat} (h : uf.find i = some (uf', r)) :
    ∀ k s, uf.rootOf k = some s → uf'.rootOf k = some s := by
  obtain ⟨-, -, spec⟩ := UF.find_elim h
  intro k s hk
  unfold UF.rootOf at hk ⊢
  rw [spec.len]
  exact spec.pres _ _ _ hk

/-- C1: for every sequence of `union` calls starting from an
all-singleton state (in particular the `__init__` state, whose
charges are all zero), the sum of the `z2_charge` values over the
current representatives is, modulo 2, the sum of the charges of the
original singleton nodes, and likewise the `z4_charge` sum modulo 4:
a merge only folds charge into the surviving representative, never
losing or duplicating it. -/
theorem C1_charge_conservation {n : Nat} {uf₀ uf : UF}
    (hp : uf₀.parent = List.range n) (h2 : uf₀.z2.length = n) (h4 : uf₀.z4.length = n)
    (hr : Reach uf₀ uf) :
    repCharge uf.parent uf.z2 % 2 = uf₀.z2.sum % 2 ∧
    repCharge uf.parent uf.z4 % 4 = uf₀.z4.sum % 4 := by
  have hwf : uf₀.WF := by
    unfold UF.WF
    rw [hp, List.length_range]
    exact ⟨h2, h4⟩
  obtain ⟨-, hc2, hc4⟩ := Reach.conserve hwf hr
  constructor
  · rw [hc2, hp, repCharge_range h2]
  · rw [hc4, hp, repCharge_range h4]

/-- C1 witness: two singletons with charges z2 = (1,1), z4 = (3,2);
after `union 0 1` the single representative carries z2 = 0, z4 = 1,
matching the singleton sums 2 mod 2 and 5 mod 4. -/
theorem C1_charge_conservation_witness :
    repCharge [0, 0] [0, 1] % 2 = ([1, 1] : List Nat).sum % 2 ∧
    repCharge [0, 0] [1, 2] % 4 = ([3, 2] : List Nat).sum % 4 :=
  @C1_charge_conservation 2 ⟨[0, 1], [1, 1], [3, 2]⟩ ⟨[0, 0], [0, 1], [1, 2]⟩
    (by decide) (by decide) (by decide)
    (Reach.union _ _ 0 1 true Reach.refl (by decide))

/-- C7 counterexample: `union(2, 1)` on the parent array `[0, 0, 1]`
returns `False` (the nodes already share representative 0), yet the
state is not unchanged: `find`'s path compression rewrites the parent
array to `[0, 0, 0]`.  This refutes the claim's "changes nothing". -/
theorem C7_union_noop_counterexample :
    UF.union ⟨[0, 0, 1], [0, 0, 0], [0, 0, 0]⟩ 2 1
        = some (⟨[0, 0, 0], [0, 0, 0], [0, 0, 0]⟩, false) ∧
      (⟨[0, 0, 0], [0, 0, 0], [0, 0, 0]⟩ : UF) ≠ ⟨[0, 0, 1], [0, 0, 0], [0, 0, 0]⟩ := by
  decide

/-- C7 (amended): for valid indices whose representatives are
`ri` and `rj`, `union(i, j)` succeeds and returns `True` exactly when
`ri ≠ rj`; on a merge the surviving root `ri` carries
`(z2 ri + z2 rj) % 2` and `(z4 ri + z4 rj) % 4` and both nodes now
share representative `ri`; when `ri = rj` it returns `False`, leaves
both charge arrays untouched and preserves every node's
representative (though path compression may rewrite parent links, as
the recorded counterexample shows). -/
theorem C7_union_semantics {uf : UF} {i j ri rj : Nat} (hwf : uf.WF)
    (hi : uf.rootOf i = some ri) (hj : uf.rootOf j = some rj) :
    ∃ uf' b, uf.union (i : Int) (j : Int) = some (uf', b) ∧
      (b = true ↔ ri ≠ rj) ∧
      (ri ≠ rj →
        uf'.z2.getD ri 0 = (uf.z2.getD ri 0 + uf.z2.getD rj 0) % 2 ∧
        uf'.z4.getD ri 0 = (uf.z4.getD ri 0 + uf.z4.getD rj 0) % 4 ∧
        uf'.rootOf i = some ri ∧ uf'.rootOf j = some ri) ∧
      (ri = rj →
        b = false ∧ uf'.z2 = uf.z2 ∧ uf'.z4 = uf.z4 ∧
        ∀ k s, uf.rootOf k = some s → uf'.rootOf k = some s) := by
  obtain ⟨uf₁, hfi, hz2a, hz4a⟩ := UF.find_total hi
  obtain ⟨-, -, spec1⟩ := UF.find_elim hfi
  have hj₁ : uf₁.rootOf j = some rj := rootOf_find hfi _ _ hj
  obtain ⟨uf₂, hfj, hz2b, hz4b⟩ := UF.find_total hj₁
  obtain ⟨-, -, spec2⟩ := UF.find_elim hfj
  have hlen1 : uf₁.parent.length = uf.parent.length := spec1.len
  have hlen2 : uf₂.parent.length = uf₁.parent.length := spec2.len
  have hchase2i : chaseD (uf.parent.length + 1) uf₂.parent i = some ri :=
    spec2.pres _ _ _ (spec1.pres _ _ _ hi)
  have hrilt : ri < uf₂.parent.length := (chaseD_out hchase2i).1
  have hrooti₂ : uf₂.parent.getD ri 0 = ri := (chaseD_out hchase2i).2
  have hrootj₂ : uf₂.parent.getD rj 0 = rj := spec2.rootP'
  have hrjlt : rj < uf₂.parent.length := by rw [hlen2]; exact spec2.rlt
  have hjlt : j < uf₁.parent.length := chaseD_some_lt hj₁
  have hentry : uf₂.parent.getD j 0 = rj := by
    obtain ⟨k, hk, hent, -⟩ := spec2.entry
    rw [npIdx_natCast hjlt] at hk
    injection hk with hk
    rw [hk]
    exact hent
  by_cases hne : ri = rj
  · subst hne
    have hunion : uf.union (i : Int) (j : Int) = some (uf₂, false) := by
      simp only [UF.union, hfi, hfj, ne_eq, not_true_eq_false, if_false]
    refine ⟨uf₂, false, hunion, by simp, fun hc => absurd rfl hc, fun _ => ⟨rfl, ?_, ?_, ?_⟩⟩
    · rw [hz2b, hz2a]
    · rw [hz4b, hz4a]
    · intro k s hk
      exact rootOf_find hfj _ _ (rootOf_find hfi _ _ hk)
  · have hunion : uf.union (i : Int) (j : Int) =
        some ({ uf₂ with
                  parent := uf₂.parent.set rj ri
                  z2 := uf₂.z2.set ri ((uf₂.z2.getD ri 0 + uf₂.z2.getD rj 0) % 2)
                  z4 := uf₂.z4.set ri ((uf₂.z4.getD ri 0 + uf₂.z4.getD rj 0) % 4) },
              true) := by
      simp only [UF.union, hfi, hfj, if_pos hne]
    have hz2len : ri < uf₂.z2.length := by
      rw [hz2b, hz2a, hwf.1, ← hlen1, ← hlen2]
      exact hrilt
    have hz4len : ri < uf₂.z4.length := by
      rw [hz4b, hz4a, hwf.2, ← hlen1, ← hlen2]
      exact hrilt
    refine ⟨_, true, hunion, by simp [hne], fun _ => ⟨?_, ?_, ?_, ?_⟩, fun hc => absurd hc hne⟩
    · show (uf₂.z2.set ri ((uf₂.z2.getD ri 0 + uf₂.z2.getD rj 0) % 2)).getD ri 0 = _
      rw [getD_set _ ri 0 hz2len, if_pos rfl, hz2b, hz2a]
    · show (uf₂.z4.set ri ((uf₂.z4.getD ri 0 + uf₂.z4.getD rj 0) % 4)).getD ri 0 = _
      rw [getD_set _ ri 0 hz4len, if_pos rfl, hz4b, hz4a]
    · show chaseD ((uf₂.parent.set rj ri).length + 1) (uf₂.parent.set rj ri) (i : Nat) = some ri
      rw [List.length_set, hlen2, hlen1]
      exact chaseD_preserve_link hrilt hrooti₂ hrootj₂ hne _ _ _ hchase2i hne
    · show chaseD ((uf₂.parent.set rj ri).length + 1) (uf₂.parent.set rj ri) (j : Nat) = some ri
      have hqri : (uf₂.parent.set rj ri).getD ri 0 = ri := by
        rw [getD_set ri ri 0 hrjlt, if_neg hne]
        exact hrooti₂
      have hqrilt : ri < (uf₂.parent.set rj ri).length := by
        rw [List.length_set]; exact hrilt
      have hqrjlt : rj < (uf₂.parent.set rj ri).length := by
        rw [List.length_set]; exact hrjlt
      have hqrj : (uf₂.parent.set rj ri).getD rj 0 = ri := by
        rw [getD_set ri rj 0 hrjlt, if_pos rfl]
      by_cases hjrj : j = rj
      · rw [hjrj]
        exact chase_one_step hqrjlt hqrj hne hqri hqrilt
          (by rw [List.length_set]; omega)
      · have hjlt₂ : j < (uf₂.parent.set rj ri).length := by
          rw [List.length_set, hlen2]; exact hjlt
        have hqj : (uf₂.parent.set rj ri).getD j 0 = rj := by
          rw [getD_set ri j 0 hrjlt, if_neg hjrj]
          exact hentry
        exact chase_two_step hjlt₂ hqj (fun hc => hjrj hc.symm) hqrj hne hqri hqrilt hqrjlt
          (by rw [List.length_set]; omega)

/-- C7 witness: merging the two singletons of `⟨[0,1],[1,1],[3,2]⟩`
returns `True` and folds the charges onto the surviving root 0. -/
theorem C7_union_semantics_witness :
    ∃ uf' b,
      UF.union ⟨[0, 1], [1, 1], [3, 2]⟩ ((0 : Nat) : Int) ((1 : Nat) : Int) = some (uf', b) ∧
      (b = true ↔ (0 : Nat) ≠ 1) ∧
      ((0 : Nat) ≠ 1 →
        uf'.z2.getD 0 0 = (([1, 1] : List Nat).getD 0 0 + ([1, 1] : List Nat).getD 1 0) % 2 ∧
        uf'.z4.getD 0 0 = (([3, 2] : List Nat).getD 0 0 + ([3, 2] : List Nat).getD 1 0) % 4 ∧
        uf'.rootOf 0 = some 0 ∧ uf'.rootOf 1 = some 0) ∧
      ((0 : Nat) = 1 →
        b = false ∧ uf'.z2 = [1, 1] ∧ uf'.z4 = [3, 2] ∧
        ∀ k s, UF.rootOf ⟨[0, 1], [1, 1], [3, 2]⟩ k = some s → uf'.rootOf k = some s) :=
  C7_union_semantics ⟨rfl, rfl⟩ (by decide) (by decide)

/-- C9 counterexample: the index `-1` lies outside `[0, node count)`
on a two-node structure, yet `find(-1)` silently succeeds — NumPy
wraps negative indices in `[-n, 0)` to the end of the array instead
of raising `IndexError`.  This refutes the claim for such indices. -/
theorem C9_negative_index_counterexample :
    (UF.init 2).find (-1) = some (UF.init 2, 1) := by decide

/-- C9 (amended): indices at or beyond the node count, or strictly
below minus the node count, make `find` — and hence `union` — raise
`IndexError` (modelled as `none`) rather than silently succeed;
negative indices in `[-n, 0)` are silently accepted as aliases of
`n + i` (see the recorded counterexample). -/
theorem C9_out_of_bounds_error (uf : UF) (i : Int)
    (h : (uf.parent.length : Int) ≤ i ∨ i < -(uf.parent.length : Int)) :
    uf.find i = none ∧ ∀ j : Int, uf.union i j = none := by
  have hfind : uf.find i = none := by
    unfold UF.find
    rw [findInt_succ, npIdx_oob h]
  exact ⟨hfind, fun j => by unfold UF.union; rw [hfind]⟩

/-- C9 witness: index 5 on a three-node structure raises. -/
theorem C9_out_of_bounds_error_witness :
    (UF.init 3).find 5 = none ∧ ∀ j : Int, (UF.init 3).union 5 j = none :=
  C9_out_of_bounds_error (UF.init 3) 5 (by decide)

/-!
The snapshot codec (`Simulation.to_dict` / `load_from_dict`, v7.0
lines 193-225) runs every NumPy array field through
`scipy.fftpack.dct(value, type=2, norm='ortho')` and restores it with
`idct(..., type=2, norm='ortho')` (SciPy's `idct` with `type=2` is the
DCT-III, the inverse of the orthonormal DCT-II).  The library
transforms are embedded below as the orthonormal DCT-II / DCT-III
pair over real vectors, and the inversion `idct2 (dct2 x) = x` is
proved from the orthogonality of the cosine kernel.  Note the code
never truncates the coefficient vector, so over the reals the
round-trip is exact.
-/

lemma sum_cos_M {N : Nat} (hN : 0 < N) (M : Int) (hM0 : M ≠ 0) (hMlt : M.natAbs < 2 * N) :
    ∑ k ∈ Finset.range N, Real.cos (k * ((M : ℝ) * Real.pi / N)) =
      if M % 2 = 0 then 0 else 1 := by
  have hNR : (N : ℝ) ≠ 0 := Nat.cast_ne_zero.mpr (by omega)
  have hNC : (N : ℂ) ≠ 0 := Nat.cast_ne_zero.mpr (by omega)
  set φ : ℝ := (M : ℝ) * Real.pi / N with hφ
  set z : ℂ := Complex.exp (φ * Complex.I) with hz
  have hzk : ∀ k : ℕ, (z ^ k).re = Real.cos (k * φ) := by
    intro k
    rw [hz, ← Complex.exp_nat_mul]
    have h1 : (k : ℂ) * (↑φ * Complex.I) = (↑(k * φ) : ℂ) * Complex.I := by
      push_cast; ring
    rw [h1, Complex.exp_ofReal_mul_I_re]
  have hre : ∑ k ∈ Finset.range N, Real.cos (k * φ) = (∑ k ∈ Finset.range N, z ^ k).re := by
    rw [Complex.re_sum]
    exact (Finset.sum_congr rfl fun k _ => (hzk k).symm)
  have hzN : z ^ N = (-1 : ℂ) ^ M := by
    rw [hz, ← Complex.exp_nat_mul]
    have h1 : (N : ℂ) * (↑φ * Complex.I) = (M : ℂ) * (Real.pi * Complex.I) := by
      rw [hφ]
      push_cast
      field_simp
      ring
    rw [h1, Complex.exp_int_mul, Complex.exp_pi_mul_I]
  have hz1 : z ≠ 1 := by
    rw [hz]
    intro hc
    have hcos : Real.cos φ = 1 := by
      have h1 := congrArg Complex.re hc
      rwa [Complex.exp_ofReal_mul_I_re, Complex.one_re] at h1
    obtain ⟨t, ht⟩ := (Real.cos_eq_one_iff φ).mp hcos
    rw [hφ] at ht
    have h2 : (t : ℝ) * (2 * Real.pi) * N = M * Real.pi := by
      rw [ht]
      field_simp
    have h3 : Real.pi * (2 * t * N) = Real.pi * M := by ring_nf; ring_nf at h2; linarith
    have h4 : (2 * t * N : ℝ) = M := mul_left_cancel₀ Real.pi_ne_zero h3
    have hMint : M = 2 * t * N := by exact_mod_cast h4.symm
    by_cases ht0 : t = 0
    · rw [ht0] at hMint
      simp at hMint
      exact hM0 hMint
    · have ht1 : 1 ≤ t.natAbs := by omega
      have habs : (2 * t * (N : Int)).natAbs = 2 * t.natAbs * N := by
        rw [Int.natAbs_mul, Int.natAbs_mul]
        simp
      have hge : 2 * N ≤ M.natAbs := by
        rw [hMint, habs]
        calc 2 * N = 2 * 1 * N := by ring
          _ ≤ 2 * t.natAbs * N := Nat.mul_le_mul_right N (Nat.mul_le_mul_left 2 ht1)
      omega
  rw [hre, geom_sum_eq hz1, hzN]
  rcases Int.even_or_odd M with ⟨t, hMt⟩ | ⟨t, hMt⟩
  · rw [if_pos (by omega)]
    have h1 : ((-1 : ℂ) ^ M - 1) = 0 := by
      rw [hMt, zpow_add₀ (by norm_num : (-1 : ℂ) ≠ 0), ← mul_zpow]
      norm_num
    rw [h1, zero_div, Complex.zero_re]
  · rw [if_neg (by omega)]
    have h1 : ((-1 : ℂ) ^ M) = -1 := by
      rw [hMt, zpow_add₀ (by norm_num : (-1 : ℂ) ≠ 0), show (2 * t : ℤ) = t + t by ring,
        zpow_add₀ (by norm_num : (-1 : ℂ) ≠ 0), ← mul_zpow]
      norm_num
    rw [h1]
    -- re ((-1 - 1)/(z - 1)) = 1
    have hzne : z ≠ 0 := Complex.exp_ne_zero _
    have hconj : (starRingEnd ℂ) z = z⁻¹ := by
      have habs1 : Complex.abs z = 1 := by
        rw [hz]
        exact Complex.abs_exp_ofReal_mul_I φ
      have : z * (starRingEnd ℂ) z = 1 := by
        rw [Complex.mul_conj]
        rw [Complex.normSq_eq_abs, habs1]
        norm_num
      exact eq_inv_of_mul_eq_one_left (by rwa [mul_comm] at this)
    have hne1 : z - 1 ≠ 0 := sub_ne_zero.mpr hz1
    have hned : z⁻¹ - 1 ≠ 0 := by
      intro hc
      apply hz1
      have h5 : z⁻¹ = 1 := by linear_combination hc
      rw [← inv_inv z, h5]
      norm_num
    have hsum2 : (-1 - 1 : ℂ) / (z - 1) + (starRingEnd ℂ) ((-1 - 1 : ℂ) / (z - 1)) = 2 := by
      rw [map_div₀, map_sub, map_sub, map_one, hconj]
      simp only [map_neg, map_one]
      rw [div_add_div _ _ hne1 hned, div_eq_iff (mul_ne_zero hne1 hned)]
      field_simp
      ring
    have h2re := Complex.add_conj ((-1 - 1 : ℂ) / (z - 1))
    rw [hsum2] at h2re
    have : ((-1 - 1 : ℂ) / (z - 1)).re = 1 := by
      have := congrArg Complex.re h2re
      simp at this
      linarith
    exact this

noncomputable def dctScale (N k : Nat) : ℝ :=
  if k = 0 then Real.sqrt (1 / N) else Real.sqrt (2 / N)

noncomputable def dctAngle (N k m : Nat) : ℝ :=
  Real.pi * k * (2 * m + 1) / (2 * N)

lemma cos_mul_cos (a b : ℝ) :
    Real.cos a * Real.cos b = (Real.cos (a - b) + Real.cos (a + b)) / 2 := by
  rw [Real.cos_add, Real.cos_sub]
  ring

lemma dct_kernel {N : Nat} (hN : 0 < N) (m n : Fin N) :
    ∑ k ∈ Finset.range N,
        dctScale N k ^ 2 * (Real.cos (dctAngle N k m) * Real.cos (dctAngle N k n))
      = if (m : Nat) = n then 1 else 0 := by
  have hNR : (N : ℝ) ≠ 0 := Nat.cast_ne_zero.mpr (by omega)
  have hterm : ∀ k ∈ Finset.range N,
      dctScale N k ^ 2 * (Real.cos (dctAngle N k m) * Real.cos (dctAngle N k n))
      = (1 / N) * (Real.cos (k * ((((m : ℤ) - n : ℤ) : ℝ) * Real.pi / N))
          + Real.cos (k * ((((m : ℤ) + n + 1 : ℤ) : ℝ) * Real.pi / N)))
        + (if k = 0 then -(1 / (N : ℝ)) else 0) := by
    intro k _
    by_cases hk : k = 0
    · subst hk
      have h0 : dctAngle N 0 m = 0 := by unfold dctAngle; push_cast; ring
      have h0' : dctAngle N 0 n = 0 := by unfold dctAngle; push_cast; ring
      rw [h0, h0']
      unfold dctScale
      rw [if_pos rfl, if_pos rfl, Real.sq_sqrt (by positivity)]
      push_cast
      simp [Real.cos_zero]
      ring
    · unfold dctScale
      rw [if_neg hk, if_neg hk, Real.sq_sqrt (by positivity), cos_mul_cos]
      have hd : dctAngle N k m - dctAngle N k n = k * ((((m : ℤ) - n : ℤ) : ℝ) * Real.pi / N) := by
        unfold dctAngle
        push_cast
        field_simp
        ring
      have hs : dctAngle N k m + dctAngle N k n
          = k * ((((m : ℤ) + n + 1 : ℤ) : ℝ) * Real.pi / N) := by
        unfold dctAngle
        push_cast
        field_simp
        ring
      rw [hd, hs]
      ring
  rw [Finset.sum_congr rfl hterm, Finset.sum_add_distrib, ← Finset.mul_sum,
    Finset.sum_add_distrib]
  have hif : ∑ k ∈ Finset.range N, (if k = 0 then -(1 / (N : ℝ)) else 0) = -(1 / N) := by
    rw [Finset.sum_ite_eq' (Finset.range N) 0 fun _ => -(1 / (N : ℝ))]
    rw [if_pos (Finset.mem_range.mpr (by omega))]
  rw [hif]
  have hM2 : ((m : ℤ) + n + 1) ≠ 0 := by omega
  have hM2abs : ((m : ℤ) + n + 1).natAbs < 2 * N := by
    have hm := m.2
    have hn := n.2
    omega
  have hC2 : ∑ k ∈ Finset.range N, Real.cos (k * ((((m : ℤ) + n + 1 : ℤ) : ℝ) * Real.pi / N))
      = if ((m : ℤ) + n + 1) % 2 = 0 then 0 else 1 := sum_cos_M hN _ hM2 hM2abs
  by_cases hmn : (m : Nat) = n
  · rw [if_pos hmn]
    have hM1 : ((m : ℤ) - n : ℤ) = 0 := by omega
    rw [hM1]
    have hz0 : ∑ x ∈ Finset.range N, Real.cos (x * (((0 : ℤ) : ℝ) * Real.pi / N)) = N := by
      simp
    rw [hz0, hC2, if_neg (by omega)]
    field_simp
  · rw [if_neg hmn]
    have hM1 : ((m : ℤ) - n : ℤ) ≠ 0 := by omega
    have hM1abs : ((m : ℤ) - n).natAbs < 2 * N := by
      have hm := m.2
      have hn := n.2
      omega
    rw [sum_cos_M hN _ hM1 hM1abs, hC2]
    have hpar : (((m : ℤ) - n) % 2 = 0 ∧ ¬((m : ℤ) + n + 1) % 2 = 0)
        ∨ (¬((m : ℤ) - n) % 2 = 0 ∧ ((m : ℤ) + n + 1) % 2 = 0) := by omega
    rcases hpar with ⟨h1, h2⟩ | ⟨h1, h2⟩
    · rw [if_pos h1, if_neg h2]
      field_simp
    · rw [if_neg h1, if_pos h2]
      field_simp

noncomputable def dct2 {N : Nat} (x : Fin N → ℝ) : Fin N → ℝ :=
  fun k => dctScale N k * ∑ m : Fin N, x m * Real.cos (dctAngle N k m)

noncomputable def idct2 {N : Nat} (y : Fin N → ℝ) : Fin N → ℝ :=
  fun m => ∑ k : Fin N, dctScale N k * y k * Real.cos (dctAngle N k m)

theorem idct2_dct2 {N : Nat} (x : Fin N → ℝ) (n : Fin N) : idct2 (dct2 x) n = x n := by
  have hN : 0 < N := n.pos
  unfold idct2 dct2
  have h1 : ∀ k : Fin N,
      dctScale N k * (dctScale N k * ∑ m : Fin N, x m * Real.cos (dctAngle N k m))
          * Real.cos (dctAngle N k n)
      = ∑ m : Fin N, x m
          * (dctScale N (k : Nat) ^ 2 * (Real.cos (dctAngle N k m) * Real.cos (dctAngle N k n))) := by
    intro k
    rw [Finset.mul_sum, Finset.mul_sum, Finset.sum_mul]
    exact Finset.sum_congr rfl fun m _ => by ring
  rw [Finset.sum_congr rfl fun k _ => h1 k, Finset.sum_comm]
  have h2 : ∀ m : Fin N,
      ∑ k : Fin N, x m
          * (dctScale N (k : Nat) ^ 2 * (Real.cos (dctAngle N k m) * Real.cos (dctAngle N k n)))
      = x m * (if (m : Nat) = n then 1 else 0) := by
    intro m
    rw [← Finset.mul_sum]
    congr 1
    rw [← dct_kernel hN m n]
    exact Fin.sum_univ_eq_sum_range
      (fun k => dctScale N k ^ 2 * (Real.cos (dctAngle N k m) * Real.cos (dctAngle N k n))) N
  rw [Finset.sum_congr rfl fun m _ => h2 m]
  have h3 : ∀ m : Fin N, (x m * if (m : Nat) = n then 1 else 0)
      = if m = n then x m else 0 := by
    intro m
    by_cases hm : m = n
    · rw [if_pos hm, if_pos (by rw [hm]), mul_one]
    · rw [if_neg hm, if_neg (fun hc => hm (Fin.ext hc)), mul_zero]
  rw [Finset.sum_congr rfl fun m _ => h3 m, Finset.sum_ite_eq' Finset.univ n x,
    if_pos (Finset.mem_univ n)]


/-- List-level orthonormal DCT-II. -/
noncomputable def dct_ortho (v : List ℝ) : List ℝ :=
  (List.range v.length).map fun k =>
    dctScale v.length k * ∑ m ∈ Finset.range v.length, v.getD m 0 * Real.cos (dctAngle v.length k m)

/-- List-level orthonormal DCT-III (scipy's `idct(..., type=2, norm='ortho')`). -/
noncomputable def idct_ortho (v : List ℝ) : List ℝ :=
  (List.range v.length).map fun m =>
    ∑ k ∈ Finset.range v.length, dctScale v.length k * v.getD k 0 * Real.cos (dctAngle v.length k m)

lemma getD_map_range {n k : Nat} (hk : k < n) (f : Nat → ℝ) :
    ((List.range n).map f).getD k 0 = f k := by
  rw [List.getD_eq_getElem?_getD, List.getElem?_map, List.getElem?_range hk]
  rfl

lemma length_dct_ortho (v : List ℝ) : (dct_ortho v).length = v.length := by
  unfold dct_ortho
  rw [List.length_map, List.length_range]

theorem idct_dct_ortho (v : List ℝ) : idct_ortho (dct_ortho v) = v := by
  have hlen : (idct_ortho (dct_ortho v)).length = v.length := by
    unfold idct_ortho
    rw [List.length_map, List.length_range, length_dct_ortho]
  apply List.ext_getElem hlen
  intro i hi hiv
  have hiv' : i < v.length := hiv
  unfold idct_ortho
  rw [List.getElem_map, List.getElem_range]
  -- the inner sums over the dct list
  have hsum : ∀ (m : Nat) (hm : m < v.length),
      ∑ k ∈ Finset.range (dct_ortho v).length,
          dctScale (dct_ortho v).length k * (dct_ortho v).getD k 0
            * Real.cos (dctAngle (dct_ortho v).length k m)
      = idct2 (dct2 fun j : Fin v.length => v.getD (j : Nat) 0) ⟨m, hm⟩ := by
    intro m hm
    rw [length_dct_ortho]
    unfold idct2
    rw [← Fin.sum_univ_eq_sum_range (fun k =>
      dctScale v.length k * (dct_ortho v).getD k 0 * Real.cos (dctAngle v.length k m)) v.length]
    refine Finset.sum_congr rfl fun k _ => ?_
    congr 1
    congr 1
    unfold dct_ortho dct2
    rw [getD_map_range k.2]
    congr 1
    rw [← Fin.sum_univ_eq_sum_range (fun j => v.getD j 0 * Real.cos (dctAngle v.length (k : Nat) j))
      v.length]
  rw [hsum i hiv']
  rw [idct2_dct2 (fun j : Fin v.length => v.getD (j : Nat) 0) ⟨i, hiv'⟩]
  rw [List.getD_eq_getElem?_getD, List.getElem?_eq_getElem hiv']
  rfl

/-!
## The `Simulation` engine (v7.0 lines 152-327)

Machine floats are real numbers.  Every NumPy RNG draw is an explicit
oracle: a function of the draw site (cycle index, node index), bundled
in `Params` together with the runtime configuration and the numeric
kernels.  The kernels `unified_field_tensor_vec`,
`entropic_resonance_vec`, `quantum_amplified_update`,
`entropy_field_propagation`, `consciousness_phase_optimized` and
`utopian_stability_metric` are called by `Simulation.update` but are
not defined anywhere in the repository sources; per the spec (sections
1, 4.5 and 6) they are black-box numeric kernels, so they appear here
as opaque function parameters.  Modelled from the spec: the
MPS contraction block of `update_entanglement` (v7.0 lines 287-297,
whose literal `np.einsum` placeholder is shape-inconsistent) is the
spec's EvolutionBackend (section 4.2): an arbitrary function `mps`
producing the state vector that the code then rolls and blends; its
tensors come from the global `np.random`, another oracle input.  The
`Multiverse`, AGI and EQGM collaborators touch no engine field used by
any claim (`agi_entities` stays empty in v7.0 because
`update_emergence` is a no-op) and are omitted.
-/

/-- `collections.deque(maxlen := m).append`: append on the right,
dropping the oldest element once the length reaches `m`. -/
def dequeAppend {α : Type} (m : Nat) (l : List α) (x : α) : List α :=
  if l.length < m then l ++ [x] else l.tail ++ [x]

/-- One event-log record: the cycle stamp, the event type and the
message (the code renders these into one string). -/
def LogEntry : Type := Nat × String × String

/-- State of `Simulation` (fields set by `reset`, v7.0 lines 158-191).
The `usm` field is created by the first full `update` call in the
source; it is given the placeholder value 0 at reset here.  `config`,
`multiverse`, `agi_entities` (always empty), `eqgm_model` and
`eqgm_features` are external collaborators and are not modelled. -/
structure Sim where
  cycle : Nat
  node_count : Nat
  stability : List ℝ
  sentience : List ℝ
  archetype_ids : List ℝ
  emotion_ids : List ℝ
  bosons : List ℝ
  fermions : List ℝ
  uf : UF
  void_entropy : ℝ
  event_log : List LogEntry
  void_entropy_trend : List ℝ
  usm_trend : List ℝ
  free_energy : ℝ
  energy_leakage : ℝ
  usm : ℝ
  halt : Bool

/-- Runtime configuration plus every external input of the engine:
the numeric kernels (black boxes per spec sections 1 and 4.5), the
EvolutionBackend `mps` (spec section 4.2), and one oracle per RNG
draw site, each a pure function of the draw site. -/
structure Params where
  ENTANGLEMENT_PROBABILITY : ℝ
  ENTANGLEMENT_STABILITY_WEIGHT : ℝ
  TREND_HISTORY_LENGTH : Nat
  uft : List ℝ → List ℝ → List ℝ
  erv : Nat → List ℝ → List ℝ
  qau : List ℝ → List ℝ
  efp : List ℝ → ℝ → List ℝ
  cpo : List ℝ → List ℝ → List ℝ → List ℝ
  usmF : Sim → ℝ
  entDraw : Nat → Nat → ℝ
  partnerDraw : Nat → Nat → Nat
  mps : Nat → List ℝ → List ℝ
  noiseDraw : Nat → ℝ
  initStability : Nat → List ℝ
  initArchetypes : Nat → List ℝ
  initEmotions : Nat → List ℝ
  initBosons : Nat → List ℝ
  initFermions : Nat → List ℝ
  initVoidEntropy : ℝ

/-- `Simulation.log_event` (v7.0 lines 320-321): append one record to
the bounded event log (deque maxlen 20). -/
def Sim.log_event (s : Sim) (t msg : String) : Sim :=
  { s with event_log := dequeAppend 20 s.event_log (s.cycle, t, msg) }

/-- The VDF seed whitening in `Simulation.reset` (v7.0 lines 161-162):
ten rounds of squaring modulo `2^32 - 1`. -/
def vdfSeed (seed : Nat) : Nat :=
  (fun x => x ^ 2 % (2 ^ 32 - 1))^[10] seed

/-- `Simulation.reset` (v7.0 lines 158-191): reinitialize every owned
field from the seed-derived random source; the budget starts at
1000.0, leakage at 0, and the engine is running. -/
def Sim.reset (P : Params) (n : Nat) : Sim :=
  Sim.log_event
    { cycle := 0
      node_count := n
      stability := P.initStability n
      sentience := List.replicate n 0
      archetype_ids := P.initArchetypes n
      emotion_ids := P.initEmotions n
      bosons := P.initBosons n
      fermions := P.initFermions n
      uf := UF.init n
      void_entropy := P.initVoidEntropy
      event_log := []
      void_entropy_trend := []
      usm_trend := []
      free_energy := 1000
      energy_leakage := 0
      usm := 0
      halt := false } "System" "Reality initialized (v7.0 God-Tier)."

/-- An engine constructed from a seed: the oracle bundle is a function
of the VDF-whitened seed (same seed, same node count and same backend
family give literally the same engine). -/
def Sim.fromSeed (family : Nat → Params) (seed n : Nat) : Sim :=
  Sim.reset (family (vdfSeed seed)) n

/-- `np.mean` of a list. -/
noncomputable def meanR (l : List ℝ) : ℝ := l.sum / l.length

/-- `np.std` (population standard deviation) of a list. -/
noncomputable def stdR (l : List ℝ) : ℝ :=
  Real.sqrt (meanR (l.map fun x => (x - meanR l) ^ 2))

/-- The four chunk sizes of `np.array_split(a, 4)`: `len % 4` chunks
of size `len / 4 + 1` followed by the rest of size `len / 4`. -/
def arraySplitSizes (n : Nat) : List Nat :=
  (List.range 4).map fun i => if i < n % 4 then n / 4 + 1 else n / 4

noncomputable def splitBySizes : List Nat → List ℝ → List (List ℝ)
  | [], _ => []
  | sz :: rest, v => v.take sz :: splitBySizes rest (v.drop sz)

/-- `np.array_split(a, 4)`. -/
noncomputable def arraySplit4 (v : List ℝ) : List (List ℝ) :=
  splitBySizes (arraySplitSizes v.length) v

/-- `Simulation._fractal_light_cone_skip` condition (v7.0 lines
271-278): the mean over the four chunks of their standard deviations
is below 0.005.  `np.std` of an empty chunk is NaN and `NaN < x` is
false in IEEE arithmetic, so the skip never fires when a chunk is
empty (that is, when the node count is below 4); the first conjunct
encodes exactly that. -/
def fractalSkip (s : Sim) : Prop :=
  (∀ c ∈ arraySplit4 s.stability, c ≠ []) ∧
    meanR ((arraySplit4 s.stability).map stdR) < 0.005

/-- Pointwise sum of two delta vectors (`stability_adj += ...`). -/
noncomputable def addLists (a b : List ℝ) : List ℝ := List.zipWith (fun x y => x + y) a b

/-- The summed delta vector of one cycle (v7.0 lines 235-239):
`stability_adj = zeros(n) + uft(stability, sentience) +
erv(stability, rng) + qau(stability) + efp(stability, void_entropy)`. -/
noncomputable def kernelSum (P : Params) (s : Sim) : List ℝ :=
  addLists (addLists (addLists (addLists (List.replicate s.node_count 0)
    (P.uft s.stability s.sentience)) (P.erv s.cycle s.stability))
    (P.qau s.stability)) (P.efp s.stability s.void_entropy)

/-- The Dirac-sparse gated delta application (v7.0 lines 241-243):
`mask = np.abs(stability_adj) > 1e-5; stability[mask] += adj[mask]` —
entries whose absolute delta does not exceed `1e-5` are skipped. -/
noncomputable def sparseEps : ℝ := 1 / 100000

noncomputable def applyMasked (st adj : List ℝ) : List ℝ :=
  List.zipWith (fun x d => if sparseEps < |d| then x + d else x) st adj

/-- The ungated delta application the spec asserts the gate is
equivalent to: every entry receives its delta. -/
noncomputable def applyFull (st adj : List ℝ) : List ℝ :=
  List.zipWith (fun x d => x + d) st adj

/-- `np.clip(v, 0, 1)`. -/
noncomputable def clampList (v : List ℝ) : List ℝ := v.map fun x => max 0 (min x 1)

/-- `np.roll(v, k)`: rotate right by `k`. -/
noncomputable def rollList (v : List ℝ) (k : Nat) : List ℝ :=
  if v.length = 0 then v
  else v.drop (v.length - k % v.length) ++ v.take (v.length - k % v.length)

/-- The blend of v7.0 lines 299-300:
`(1 - w) * stability + w * coherent_field`, elementwise. -/
noncomputable def blendLists (w : ℝ) (a b : List ℝ) : List ℝ :=
  List.zipWith (fun x y => (1 - w) * x + w * y) a b

/-- The entanglement sampling loop of `update_entanglement` (v7.0
lines 282-285): for each node `i`, with probability
`ENTANGLEMENT_PROBABILITY`, draw a partner `j = rng.integers(n)` and
merge unless `i = j`.  `rng.integers(n)` lands in `[0, n)` by the
NumPy contract, modelled by the `% n`.  A failing `union` (impossible
from reachable states) keeps the structure unchanged. -/
noncomputable def entUnions (P : Params) (c n : Nat) (uf : UF) : UF :=
  (List.range n).foldl
    (fun u i =>
      if P.entDraw c i < P.ENTANGLEMENT_PROBABILITY then
        if i ≠ P.partnerDraw c i % n then
          match u.union (i : Int) ((P.partnerDraw c i % n : Nat) : Int) with
          | none => u
          | some (u₁, _) => u₁
        else u
      else u) uf

/-- `Simulation.update_entanglement` (v7.0 lines 280-300): the union
sampling loop, then the backend-produced state vector is rolled by
`cycle % node_count` and blended into `stability` with weight
`ENTANGLEMENT_STABILITY_WEIGHT`. -/
noncomputable def updateEntanglement (P : Params) (s : Sim) : Sim :=
  { s with
      uf := entUnions P s.cycle s.node_count s.uf
      stability := blendLists P.ENTANGLEMENT_STABILITY_WEIGHT s.stability
        (rollList (P.mps s.cycle s.stability) (s.cycle % s.node_count)) }

/-- Steps 1–8 of the cycle (v7.0 lines 233-258), before the ledger
charge: advance the cycle counter, compute the summed delta vector,
apply it through the sparsity gate, clamp to `[0,1]`, recompute
sentience, run `update_entanglement`, drift the void entropy (clipped
to `[-0.5, 0.5]`), and append both bounded trend records. -/
noncomputable def advanceState (P : Params) (s : Sim) : Sim :=
  let s₁ : Sim := { s with cycle := s.cycle + 1 }
  let s₂ : Sim := { s₁ with
    stability := clampList (applyMasked s₁.stability (kernelSum P s₁))
    sentience := P.cpo s₁.bosons s₁.fermions s₁.emotion_ids }
  let s₃ := updateEntanglement P s₂
  let ve := max (-(1 / 2) : ℝ)
    (min (s₃.void_entropy + 1 / 100 * (meanR s₃.stability - 1 / 2) + P.noiseDraw s₃.cycle)
      (1 / 2))
  { s₃ with
    void_entropy := ve
    void_entropy_trend := dequeAppend P.TREND_HISTORY_LENGTH s₃.void_entropy_trend ve
    usm := P.usmF s₃
    usm_trend := dequeAppend P.TREND_HISTORY_LENGTH s₃.usm_trend (P.usmF s₃) }

/-- The cost charged to the ledger by one non-skipped cycle from `s`
(v7.0 line 261): `np.sum(np.abs(stability_adj))`, the summed absolute
deltas of that cycle. -/
noncomputable def cycleCost (P : Params) (s : Sim) : ℝ :=
  ((kernelSum P { s with cycle := s.cycle + 1 }).map fun d => |d|).sum

open Classical in
/-- `Simulation.update` (v7.0 lines 227-269), one cycle:
return unchanged when halted; return (logging every 20th cycle) when
the fractal light-cone scheduler skips; otherwise run `advanceState`,
then charge the thermodynamic ledger with the cycle's cost: when the
budget goes negative, record the overdraft as leakage, halt, and log
the collapse. -/
noncomputable def Sim.update (P : Params) (s : Sim) : Sim :=
  if s.halt then s
  else if fractalSkip s then
    (if s.cycle % 20 = 0 then s.log_event "Scheduler" "Fractal skip triggered." else s)
  else if (advanceState P s).free_energy - cycleCost P s < 0 then
    Sim.log_event
      { advanceState P s with
          free_energy := (advanceState P s).free_energy - cycleCost P s
          energy_leakage := |(advanceState P s).free_energy - cycleCost P s|
          halt := true } "TRL" "Thermodynamic collapse! Free energy exhausted."
  else { advanceState P s with
          free_energy := (advanceState P s).free_energy - cycleCost P s }

/-- `k` consecutive `update` calls. -/
noncomputable def Sim.stepN (P : Params) : Nat → Sim → Sim
  | 0, s => s
  | k + 1, s => Sim.stepN P k (s.update P)

/-!
## The snapshot codec (v7.0 lines 193-225)

`to_dict` copies the `__dict__`, pops `config`/`eqgm_model`, stores
the union-find arrays exactly under `uf_data` (`tolist`), and runs
every remaining `np.ndarray` value through the orthonormal DCT-II.
`load_from_dict` applies the inverse DCT-III to every list value not
in the exclusion set, restores the union-find arrays exactly, and
logs one event.  Scalars (`cycle`, `node_count`, `free_energy`,
`energy_leakage`, `void_entropy`, `usm`, `halt`) and deques
(`event_log` and the two trends, which are not `np.ndarray`) pass
through unchanged.  The `multiverse_data` and `agi_entities` entries
concern unmodelled collaborators. -/
structure SnapDict where
  cycle : Nat
  node_count : Nat
  stability_dct : List ℝ
  sentience_dct : List ℝ
  archetype_ids_dct : List ℝ
  emotion_ids_dct : List ℝ
  bosons_dct : List ℝ
  fermions_dct : List ℝ
  void_entropy : ℝ
  event_log : List LogEntry
  void_entropy_trend : List ℝ
  usm_trend : List ℝ
  free_energy : ℝ
  energy_leakage : ℝ
  usm : ℝ
  halt : Bool
  uf_parent : List Nat
  uf_z2 : List Nat
  uf_z4 : List Nat

/-- `Simulation.to_dict` (v7.0 lines 193-209). -/
noncomputable def Sim.to_dict (s : Sim) : SnapDict :=
  { cycle := s.cycle
    node_count := s.node_count
    stability_dct := dct_ortho s.stability
    sentience_dct := dct_ortho s.sentience
    archetype_ids_dct := dct_ortho s.archetype_ids
    emotion_ids_dct := dct_ortho s.emotion_ids
    bosons_dct := dct_ortho s.bosons
    fermions_dct := dct_ortho s.fermions
    void_entropy := s.void_entropy
    event_log := s.event_log
    void_entropy_trend := s.void_entropy_trend
    usm_trend := s.usm_trend
    free_energy := s.free_energy
    energy_leakage := s.energy_leakage
    usm := s.usm
    halt := s.halt
    uf_parent := s.uf.parent
    uf_z2 := s.uf.z2
    uf_z4 := s.uf.z4 }

/-- `Simulation.load_from_dict` (v7.0 lines 211-225): inverse
transform of the array fields, exact restore of the scalars, deques
and union-find arrays, then one log event. -/
noncomputable def Sim.load_from_dict (d : SnapDict) : Sim :=
  Sim.log_event
    { cycle := d.cycle
      node_count := d.node_count
      stability := idct_ortho d.stability_dct
      sentience := idct_ortho d.sentience_dct
      archetype_ids := idct_ortho d.archetype_ids_dct
      emotion_ids := idct_ortho d.emotion_ids_dct
      bosons := idct_ortho d.bosons_dct
      fermions := idct_ortho d.fermions_dct
      uf := { parent := d.uf_parent, z2 := d.uf_z2, z4 := d.uf_z4 }
      void_entropy := d.void_entropy
      event_log := d.event_log
      void_entropy_trend := d.void_entropy_trend
      usm_trend := d.usm_trend
      free_energy := d.free_energy
      energy_leakage := d.energy_leakage
      usm := d.usm
      halt := d.halt } "System" "State loaded from spectral snapshot."

/-- C2: decoding the encoding of any engine state recovers the cycle
counter, the halt flag, the ledger value (`free_energy`) and all
three union-find arrays exactly, and recovers the node-state vector
with maximum absolute elementwise error at most the documented
tolerance 1e-2 — in the real-number model the DCT-II/DCT-III pair is
exactly inverse (the code never truncates the coefficients), so the
error is 0. -/
theorem C2_snapshot_roundtrip (s : Sim) :
    (Sim.load_from_dict (Sim.to_dict s)).cycle = s.cycle ∧
    (Sim.load_from_dict (Sim.to_dict s)).halt = s.halt ∧
    (Sim.load_from_dict (Sim.to_dict s)).free_energy = s.free_energy ∧
    (Sim.load_from_dict (Sim.to_dict s)).uf.parent = s.uf.parent ∧
    (Sim.load_from_dict (Sim.to_dict s)).uf.z2 = s.uf.z2 ∧
    (Sim.load_from_dict (Sim.to_dict s)).uf.z4 = s.uf.z4 ∧
    (Sim.load_from_dict (Sim.to_dict s)).stability = s.stability ∧
    ∀ i : Nat,
      |(Sim.load_from_dict (Sim.to_dict s)).stability.getD i 0 - s.stability.getD i 0|
        ≤ 1 / 100 := by
  refine ⟨rfl, rfl, rfl, rfl, rfl, rfl, ?_, ?_⟩
  · show idct_ortho (dct_ortho s.stability) = s.stability
    exact idct_dct_ortho s.stability
  · intro i
    show |(idct_ortho (dct_ortho s.stability)).getD i 0 - s.stability.getD i 0| ≤ 1 / 100
    rw [idct_dct_ortho s.stability, sub_self, abs_zero]
    norm_num

/-- C3: all randomness of the engine is an explicit deterministic
function of the seed (`family` maps the VDF-whitened seed to the
oracle bundle, which includes the backend), so two engines
constructed with the same seed and node count and stepped the same
number of times with the same backend agree on the cycle counter,
the halt flag, and (the backend being a deterministic function in
this model) the node-state vector. -/
theorem C3_determinism (family : Nat → Params) (seed n k : Nat) (e₁ e₂ : Sim)
    (h₁ : e₁ = Sim.fromSeed family seed n) (h₂ : e₂ = Sim.fromSeed family seed n) :
    (Sim.stepN (family (vdfSeed seed)) k e₁).cycle
        = (Sim.stepN (family (vdfSeed seed)) k e₂).cycle ∧
    (Sim.stepN (family (vdfSeed seed)) k e₁).halt
        = (Sim.stepN (family (vdfSeed seed)) k e₂).halt ∧
    (Sim.stepN (family (vdfSeed seed)) k e₁).stability
        = (Sim.stepN (family (vdfSeed seed)) k e₂).stability := by
  subst h₁
  subst h₂
  exact ⟨rfl, rfl, rfl⟩

/-- A halted engine is a fixed point of `update` (v7.0 line 228:
`if self.halt: return`). -/
lemma update_halted {P : Params} {s : Sim} (h : s.halt = true) : Sim.update P s = s := by
  unfold Sim.update
  rw [h]
  rfl

lemma stepN_halted {P : Params} {s : Sim} (h : s.halt = true) (k : Nat) :
    Sim.stepN P k s = s := by
  induction k with
  | zero => rfl
  | succ k ih =>
    show Sim.stepN P k (s.update P) = s
    rw [update_halted h]
    exact ih

/-- C5: once the halt flag is set, every subsequent `update` call
leaves the whole engine state unchanged — no delta application, no
cycle advance, no ledger charge — and the flag stays set; `reset` is
the operation that clears it, rebuilding the state from the seed. -/
theorem C5_halt_terminal (P : Params) (s : Sim) (k n : Nat) (h : s.halt = true) :
    Sim.stepN P k s = s ∧ (Sim.stepN P k s).halt = true ∧ (Sim.reset P n).halt = false := by
  refine ⟨stepN_halted h k, ?_, rfl⟩
  rw [stepN_halted h k]
  exact h

/-- A concrete oracle bundle for the concrete instances below: unit
`unified_field_tensor_vec` deltas, all other kernels zero, zero
entanglement probability, zero blend weight, identity backend. -/
noncomputable def P₀ : Params where
  ENTANGLEMENT_PROBABILITY := 0
  ENTANGLEMENT_STABILITY_WEIGHT := 0
  TREND_HISTORY_LENGTH := 50
  uft := fun st _ => st.map fun _ => 1
  erv := fun _ st => st.map fun _ => 0
  qau := fun st => st.map fun _ => 0
  efp := fun st _ => st.map fun _ => 0
  cpo := fun _ _ _ => []
  usmF := fun _ => 0
  entDraw := fun _ _ => 0
  partnerDraw := fun _ _ => 0
  mps := fun _ v => v
  noiseDraw := fun _ => 0
  initStability := fun n => (List.range n).map fun i => if i % 2 = 0 then 0 else 1
  initArchetypes := fun n => List.replicate n 0
  initEmotions := fun n => List.replicate n 0
  initBosons := fun n => List.replicate n 1
  initFermions := fun n => List.replicate n 1
  initVoidEntropy := 0

/-- C3 witness: two engines built from seed 42 with 8 nodes and the
`P₀` backend family, stepped 3 times. -/
theorem C3_determinism_witness :
    (Sim.stepN ((fun _ => P₀) (vdfSeed 42)) 3 (Sim.fromSeed (fun _ => P₀) 42 8)).cycle
        = (Sim.stepN ((fun _ => P₀) (vdfSeed 42)) 3 (Sim.fromSeed (fun _ => P₀) 42 8)).cycle ∧
    (Sim.stepN ((fun _ => P₀) (vdfSeed 42)) 3 (Sim.fromSeed (fun _ => P₀) 42 8)).halt
        = (Sim.stepN ((fun _ => P₀) (vdfSeed 42)) 3 (Sim.fromSeed (fun _ => P₀) 42 8)).halt ∧
    (Sim.stepN ((fun _ => P₀) (vdfSeed 42)) 3 (Sim.fromSeed (fun _ => P₀) 42 8)).stability
        = (Sim.stepN ((fun _ => P₀) (vdfSeed 42)) 3 (Sim.fromSeed (fun _ => P₀) 42 8)).stability :=
  C3_determinism (fun _ => P₀) 42 8 3 _ _ rfl rfl

/-- A halted engine state. -/
noncomputable def sHalted : Sim where
  cycle := 7
  node_count := 2
  stability := [1 / 4, 3 / 4]
  sentience := []
  archetype_ids := []
  emotion_ids := []
  bosons := []
  fermions := []
  uf := UF.init 2
  void_entropy := 0
  event_log := []
  void_entropy_trend := []
  usm_trend := []
  free_energy := -3
  energy_leakage := 3
  usm := 0
  halt := true

/-- C5 witness: three updates of a halted engine change nothing, and
a reset engine is running. -/
theorem C5_halt_terminal_witness :
    Sim.stepN P₀ 3 sHalted = sHalted ∧ (Sim.stepN P₀ 3 sHalted).halt = true ∧
      (Sim.reset P₀ 2).halt = false :=
  C5_halt_terminal P₀ sHalted 3 2 rfl

/-- C6 counterexample: the delta `1e-6` is nonzero but below the
`1e-5` gate, so the gated application leaves the state at `0.5` while
the full application moves it to `0.500001`: the gate does change the
end state. -/
theorem C6_sparsity_gate_counterexample :
    applyMasked [1 / 2] [1 / 1000000] ≠ applyFull [1 / 2] [1 / 1000000] := by
  have hlt : ¬ sparseEps < |(1 / 1000000 : ℝ)| := by
    rw [abs_of_nonneg (by norm_num)]
    unfold sparseEps
    norm_num
  simp only [applyMasked, applyFull, List.zipWith_cons_cons, List.zipWith_nil_right,
    if_neg hlt]
  intro h
  rw [List.cons.injEq] at h
  have h1 := h.1
  norm_num at h1

/-- C6 (amended): applying the delta with the sparsity gate produces
an end state that differs from the full application by at most the
gate epsilon `1e-5` in every entry (entries whose delta exceeds the
epsilon, or is zero, agree exactly); it is not identical in general,
as the recorded counterexample shows. -/
theorem C6_sparsity_gate_bound (st adj : List ℝ) (i : Nat) :
    |(applyMasked st adj).getD i 0 - (applyFull st adj).getD i 0| ≤ sparseEps := by
  induction st generalizing adj i with
  | nil =>
    simp only [applyMasked, applyFull, List.zipWith_nil_left, List.getD]
    rw [sub_self, abs_zero]
    unfold sparseEps
    norm_num
  | cons x st ih =>
    cases adj with
    | nil =>
      simp only [applyMasked, applyFull, List.zipWith_nil_right, List.getD]
      rw [sub_self, abs_zero]
      unfold sparseEps
      norm_num
    | cons d adj =>
      cases i with
      | zero =>
        simp only [applyMasked, applyFull, List.zipWith_cons_cons, List.getD_cons_zero]
        by_cases hd : sparseEps < |d|
        · rw [if_pos hd, sub_self, abs_zero]
          unfold sparseEps
          norm_num
        · rw [if_neg hd]
          have hx : x - (x + d) = -d := by ring
          rw [hx, abs_neg]
          exact le_of_not_lt hd
      | succ i =>
        simp only [applyMasked, applyFull, List.zipWith_cons_cons, List.getD_cons_succ]
        exact ih adj i

lemma dequeAppend_length_lt {α : Type} {m : Nat} {l : List α} {x : α}
    (h : l.length < m) : (dequeAppend m l x).length = l.length + 1 := by
  unfold dequeAppend
  rw [if_pos h, List.length_append]
  rfl

lemma advanceState_free_energy (P : Params) (s : Sim) :
    (advanceState P s).free_energy = s.free_energy := rfl

lemma advanceState_cycle (P : Params) (s : Sim) :
    (advanceState P s).cycle = s.cycle + 1 := rfl

lemma advanceState_halt (P : Params) (s : Sim) :
    (advanceState P s).halt = s.halt := rfl

lemma advanceState_vtrend_len (P : Params) (s : Sim)
    (hcap : s.void_entropy_trend.length < P.TREND_HISTORY_LENGTH) :
    (advanceState P s).void_entropy_trend.length = s.void_entropy_trend.length + 1 := by
  exact dequeAppend_length_lt hcap

lemma advanceState_utrend_len (P : Params) (s : Sim)
    (hcap : s.usm_trend.length < P.TREND_HISTORY_LENGTH) :
    (advanceState P s).usm_trend.length = s.usm_trend.length + 1 := by
  exact dequeAppend_length_lt hcap

/-- Reduction of `update` in the skip-branch. -/
lemma update_skip_eq {P : Params} {s : Sim} (hrun : s.halt = false)
    (hskip : fractalSkip s) :
    Sim.update P s
      = if s.cycle % 20 = 0 then s.log_event "Scheduler" "Fractal skip triggered." else s := by
  unfold Sim.update
  rw [hrun]
  simp only [Bool.false_eq_true, if_false]
  rw [if_pos hskip]

/-- Reduction of `update` when the cycle runs and the charge leaves
the budget negative. -/
lemma update_exhaust_eq {P : Params} {s : Sim} (hrun : s.halt = false)
    (hskip : ¬ fractalSkip s) (hneg : s.free_energy - cycleCost P s < 0) :
    Sim.update P s = Sim.log_event
      { advanceState P s with
          free_energy := s.free_energy - cycleCost P s
          energy_leakage := |s.free_energy - cycleCost P s|
          halt := true } "TRL" "Thermodynamic collapse! Free energy exhausted." := by
  unfold Sim.update
  rw [hrun]
  simp only [Bool.false_eq_true, if_false]
  rw [if_neg hskip, advanceState_free_energy, if_pos hneg]

/-- Reduction of `update` when the cycle runs and the budget survives. -/
lemma update_ok_eq {P : Params} {s : Sim} (hrun : s.halt = false)
    (hskip : ¬ fractalSkip s) (hpos : ¬ s.free_energy - cycleCost P s < 0) :
    Sim.update P s
      = { advanceState P s with free_energy := s.free_energy - cycleCost P s } := by
  unfold Sim.update
  rw [hrun]
  simp only [Bool.false_eq_true, if_false]
  rw [if_neg hskip, advanceState_free_energy, if_neg hpos]

/-- In a non-skipped running cycle the final stability vector is the
one `advanceState` produced: the ledger charge does not touch it. -/
lemma update_run_stability {P : Params} {s : Sim} (hrun : s.halt = false)
    (hskip : ¬ fractalSkip s) :
    (Sim.update P s).stability = (advanceState P s).stability := by
  by_cases hneg : s.free_energy - cycleCost P s < 0
  · rw [update_exhaust_eq hrun hskip hneg]
    rfl
  · rw [update_ok_eq hrun hskip hneg]

/-- C10: whenever `update` is called in the running state and the
mean of the standard deviations of the four `np.array_split` chunks
of the stability vector is below 0.005, the call returns with every
engine field unchanged except the event log (a scheduler record is
appended when the cycle count is a multiple of 20): the cycle counter
does not advance, no deltas are applied, no union-find merges occur,
and the ledger is not charged. -/
theorem C10_low_variance_skip (P : Params) (s : Sim) (hrun : s.halt = false)
    (hskip : fractalSkip s) :
    Sim.update P s
        = (if s.cycle % 20 = 0 then s.log_event "Scheduler" "Fractal skip triggered." else s) ∧
    (Sim.update P s).cycle = s.cycle ∧
    (Sim.update P s).stability = s.stability ∧
    (Sim.update P s).uf = s.uf ∧
    (Sim.update P s).free_energy = s.free_energy ∧
    (Sim.update P s).halt = false := by
  have h1 := update_skip_eq (P := P) hrun hskip
  refine ⟨h1, ?_, ?_, ?_, ?_, ?_⟩ <;> rw [h1] <;> split_ifs <;>
    first
      | rfl
      | exact hrun

/-- The constant-stability engine state used as the C10 witness. -/
noncomputable def sConst : Sim where
  cycle := 1
  node_count := 8
  stability := List.replicate 8 (1 / 2)
  sentience := []
  archetype_ids := []
  emotion_ids := []
  bosons := []
  fermions := []
  uf := UF.init 8
  void_entropy := 0
  event_log := []
  void_entropy_trend := []
  usm_trend := []
  free_energy := 1000
  energy_leakage := 0
  usm := 0
  halt := false

lemma stdR_const_half : stdR [(1 : ℝ) / 2, 1 / 2] = 0 := by
  have hm : meanR [(1 : ℝ) / 2, 1 / 2] = 1 / 2 := by
    unfold meanR
    norm_num
  unfold stdR
  rw [hm]
  norm_num [meanR, Real.sqrt_zero]

lemma sConst_skip : fractalSkip sConst := by
  have harr : arraySplit4 sConst.stability
      = [[1 / 2, 1 / 2], [1 / 2, 1 / 2], [1 / 2, 1 / 2], [1 / 2, 1 / 2]] := rfl
  constructor
  · rw [harr]
    intro c hc
    simp only [List.mem_cons, List.not_mem_nil, or_false] at hc
    rcases hc with rfl | rfl | rfl | rfl <;> simp
  · rw [harr]
    simp only [List.map_cons, List.map_nil, stdR_const_half]
    unfold meanR
    norm_num

/-- C10 witness: a constant stability vector triggers the skip and
(at cycle 1, not a multiple of 20) the state is returned untouched. -/
theorem C10_low_variance_skip_witness : Sim.update P₀ sConst = sConst := by
  have h := (C10_low_variance_skip P₀ sConst rfl sConst_skip).1
  rw [h, if_neg (show ¬ sConst.cycle % 20 = 0 by decide)]

/-- C4 (amended): in every `update` call in which charging the ledger
with the cycle's cost makes the budget negative, the engine records
the overdraft magnitude as leakage and sets the halt flag — but the
cycle counter has already been advanced and both trend records
already appended earlier in the same call (the source increments
`cycle` first and charges the ledger last); what the halt prevents is
the next `update` call, which returns with the state unchanged. -/
theorem C4_exhaustion_halts (P : Params) (s : Sim) (hrun : s.halt = false)
    (hskip : ¬ fractalSkip s) (hneg : s.free_energy - cycleCost P s < 0)
    (hcap1 : s.void_entropy_trend.length < P.TREND_HISTORY_LENGTH)
    (hcap2 : s.usm_trend.length < P.TREND_HISTORY_LENGTH) :
    (Sim.update P s).halt = true ∧
    (Sim.update P s).free_energy = s.free_energy - cycleCost P s ∧
    (Sim.update P s).energy_leakage = |s.free_energy - cycleCost P s| ∧
    (Sim.update P s).cycle = s.cycle + 1 ∧
    (Sim.update P s).void_entropy_trend.length = s.void_entropy_trend.length + 1 ∧
    (Sim.update P s).usm_trend.length = s.usm_trend.length + 1 ∧
    Sim.update P (Sim.update P s) = Sim.update P s := by
  have h1 := update_exhaust_eq hrun hskip hneg
  have hhalt : (Sim.update P s).halt = true := by rw [h1]; rfl
  refine ⟨hhalt, ?_, ?_, ?_, ?_, ?_, update_halted hhalt⟩
  · rw [h1]
    rfl
  · rw [h1]
    rfl
  · rw [h1]
    exact advanceState_cycle P s
  · rw [h1]
    exact advanceState_vtrend_len P s hcap1
  · rw [h1]
    exact advanceState_utrend_len P s hcap2

/-- The engine state of the C4 instances: eight nodes with
alternating stability, a budget of 5 about to be charged 8. -/
noncomputable def s₀ : Sim where
  cycle := 1
  node_count := 8
  stability := [0, 1, 0, 1, 0, 1, 0, 1]
  sentience := []
  archetype_ids := []
  emotion_ids := []
  bosons := []
  fermions := []
  uf := UF.init 8
  void_entropy := 0
  event_log := []
  void_entropy_trend := []
  usm_trend := []
  free_energy := 5
  energy_leakage := 0
  usm := 0
  halt := false

lemma stdR_01 : stdR [(0 : ℝ), 1] = 1 / 2 := by
  have hm : meanR [(0 : ℝ), 1] = 1 / 2 := by
    unfold meanR
    norm_num
  unfold stdR
  rw [hm]
  have hmap : ([(0 : ℝ), 1].map fun x => (x - 1 / 2) ^ 2) = [1 / 4, 1 / 4] := by
    norm_num
  rw [hmap]
  have hm2 : meanR [(1 : ℝ) / 4, 1 / 4] = 1 / 4 := by
    unfold meanR
    norm_num
  rw [hm2, show (1 / 4 : ℝ) = (1 / 2) ^ 2 by norm_num, Real.sqrt_sq (by norm_num)]

lemma s₀_no_skip : ¬ fractalSkip s₀ := by
  have harr : arraySplit4 s₀.stability = [[0, 1], [0, 1], [0, 1], [0, 1]] := rfl
  intro h
  obtain ⟨-, hB⟩ := h
  rw [harr] at hB
  simp only [List.map_cons, List.map_nil, stdR_01] at hB
  unfold meanR at hB
  norm_num at hB

lemma s₀_cost : cycleCost P₀ s₀ = 8 := by
  norm_num [cycleCost, kernelSum, addLists, P₀, s₀]

/-- C4 counterexample: at `s₀` (budget 5, cycle cost 8) the charging
call does halt and record leakage 3, but — contrary to the claim —
the cycle counter has advanced from 1 to 2 and both trend lists have
grown by one record in that same call. -/
theorem C4_cycle_still_advances_counterexample :
    (Sim.update P₀ s₀).halt = true ∧
    (Sim.update P₀ s₀).energy_leakage = 3 ∧
    (Sim.update P₀ s₀).cycle = 2 ∧
    (Sim.update P₀ s₀).void_entropy_trend.length = 1 ∧
    (Sim.update P₀ s₀).usm_trend.length = 1 := by
  have hneg : s₀.free_energy - cycleCost P₀ s₀ < 0 := by
    rw [s₀_cost]
    norm_num [s₀]
  have h1 := update_exhaust_eq (P := P₀) rfl s₀_no_skip hneg
  refine ⟨by rw [h1]; rfl, ?_, by rw [h1]; rfl, by rw [h1]; rfl, by rw [h1]; rfl⟩
  rw [h1]
  show |s₀.free_energy - cycleCost P₀ s₀| = 3
  rw [s₀_cost]
  norm_num [s₀]

/-- C4 witness: the amended theorem at the concrete state `s₀`. -/
theorem C4_exhaustion_halts_witness :
    (Sim.update P₀ s₀).halt = true ∧
    (Sim.update P₀ s₀).free_energy = s₀.free_energy - cycleCost P₀ s₀ ∧
    (Sim.update P₀ s₀).energy_leakage = |s₀.free_energy - cycleCost P₀ s₀| ∧
    (Sim.update P₀ s₀).cycle = s₀.cycle + 1 ∧
    (Sim.update P₀ s₀).void_entropy_trend.length = s₀.void_entropy_trend.length + 1 ∧
    (Sim.update P₀ s₀).usm_trend.length = s₀.usm_trend.length + 1 ∧
    Sim.update P₀ (Sim.update P₀ s₀) = Sim.update P₀ s₀ :=
  C4_exhaustion_halts P₀ s₀ rfl s₀_no_skip
    (by rw [s₀_cost]; norm_num [s₀]) (by norm_num [s₀, P₀]) (by norm_num [s₀, P₀])

lemma mem_zipWith {α β γ : Type} {f : α → β → γ} :
    ∀ {a : List α} {b : List β} {x : γ},
      x ∈ List.zipWith f a b → ∃ u ∈ a, ∃ v ∈ b, x = f u v := by
  intro a
  induction a with
  | nil =>
    intro b x hx
    simp [List.zipWith] at hx
  | cons u a ih =>
    intro b x hx
    cases b with
    | nil => simp [List.zipWith] at hx
    | cons v b =>
      rw [List.zipWith_cons_cons] at hx
      rcases List.mem_cons.mp hx with rfl | hx
      · exact ⟨u, List.mem_cons_self _ _, v, List.mem_cons_self _ _, rfl⟩
      · obtain ⟨u', hu', v', hv', rfl⟩ := ih hx
        exact ⟨u', List.mem_cons_of_mem _ hu', v', List.mem_cons_of_mem _ hv', rfl⟩

lemma clampList_mem {v : List ℝ} {x : ℝ} (hx : x ∈ clampList v) : 0 ≤ x ∧ x ≤ 1 := by
  unfold clampList at hx
  obtain ⟨y, -, rfl⟩ := List.mem_map.mp hx
  exact ⟨le_max_left 0 _, max_le (by norm_num) (min_le_right y 1)⟩

lemma rollList_mem {v : List ℝ} {k : Nat} {x : ℝ} (hx : x ∈ rollList v k) : x ∈ v := by
  unfold rollList at hx
  split_ifs at hx with h
  · exact hx
  · rcases List.mem_append.mp hx with h1 | h1
    · exact List.mem_of_mem_drop h1
    · exact List.mem_of_mem_take h1

/-- C8 (amended): the node-state vector is clamped to `[0, 1]` right
after the delta application, but the backend blend runs afterwards;
the end-of-call vector lies in `[0, 1]` for every reachable state
provided the blend weight is in `[0, 1]` and the backend maps
`[0, 1]`-valued vectors to `[0, 1]`-valued vectors (as an identity or
averaging backend does).  Without that backend property the claim
fails, as the recorded counterexample shows. -/
theorem C8_stability_range (P : Params) (s : Sim)
    (hw0 : 0 ≤ P.ENTANGLEMENT_STABILITY_WEIGHT) (hw1 : P.ENTANGLEMENT_STABILITY_WEIGHT ≤ 1)
    (hmps : ∀ c v, (∀ x ∈ v, 0 ≤ x ∧ x ≤ 1) → ∀ x ∈ P.mps c v, 0 ≤ x ∧ x ≤ 1)
    (hst : ∀ x ∈ s.stability, 0 ≤ x ∧ x ≤ 1) :
    ∀ x ∈ (Sim.update P s).stability, 0 ≤ x ∧ x ≤ 1 := by
  by_cases hh : s.halt = true
  · rw [update_halted hh]
    exact hst
  · have hrun : s.halt = false := by
      cases hb : s.halt
      · rfl
      · exact absurd hb hh
    by_cases hsk : fractalSkip s
    · rw [update_skip_eq hrun hsk]
      split_ifs
      · exact hst
      · exact hst
    · rw [update_run_stability hrun hsk]
      show ∀ x ∈ blendLists P.ENTANGLEMENT_STABILITY_WEIGHT
          (clampList (applyMasked s.stability (kernelSum P { s with cycle := s.cycle + 1 })))
          (rollList
            (P.mps (s.cycle + 1)
              (clampList (applyMasked s.stability (kernelSum P { s with cycle := s.cycle + 1 }))))
            ((s.cycle + 1) % s.node_count)), 0 ≤ x ∧ x ≤ 1
      intro x hx
      obtain ⟨u, hu, v, hv, rfl⟩ := mem_zipWith hx
      have hu' : 0 ≤ u ∧ u ≤ 1 := clampList_mem hu
      have hv' : 0 ≤ v ∧ v ≤ 1 :=
        hmps _ _ (fun y hy => clampList_mem hy) v (rollList_mem hv)
      constructor
      · nlinarith [hu'.1, hu'.2, hv'.1, hv'.2]
      · nlinarith [hu'.1, hu'.2, hv'.1, hv'.2]

/-- A spec-conforming backend (finite, length-preserving output) that
pushes every entry to 2, with full blend weight. -/
noncomputable def PBad : Params :=
  { P₀ with
      ENTANGLEMENT_STABILITY_WEIGHT := 1
      uft := fun st _ => st.map fun _ => 0
      mps := fun _ v => v.map fun _ => 2 }

/-- C8 counterexample: from the freshly reset engine (all stability
entries in `[0, 1]`), one completed `update` call with the constant-2
backend and full blend weight leaves entry 0 at 2, outside `[0, 1]` —
the clamp happens before the blend, so the end-of-call vector is not
clamped. -/
theorem C8_range_counterexample :
    (Sim.update PBad (Sim.reset PBad 8)).stability.getD 0 0 = 2 ∧
    ¬ ((Sim.update PBad (Sim.reset PBad 8)).stability.getD 0 0 ≤ 1) := by
  have hrun : (Sim.reset PBad 8).halt = false := rfl
  have hstab : (Sim.reset PBad 8).stability = [0, 1, 0, 1, 0, 1, 0, 1] := rfl
  have hskip : ¬ fractalSkip (Sim.reset PBad 8) := by
    have harr : arraySplit4 (Sim.reset PBad 8).stability
        = [[0, 1], [0, 1], [0, 1], [0, 1]] := rfl
    intro h
    obtain ⟨-, hB⟩ := h
    rw [harr] at hB
    simp only [List.map_cons, List.map_nil, stdR_01] at hB
    unfold meanR at hB
    norm_num at hB
  have hs := update_run_stability (P := PBad) hrun hskip
  have hcyc : (Sim.reset PBad 8).cycle = 0 := rfl
  have hnc : (Sim.reset PBad 8).node_count = 8 := rfl
  have hadv : (advanceState PBad (Sim.reset PBad 8)).stability
      = [2, 2, 2, 2, 2, 2, 2, 2] := by
    simp only [advanceState, updateEntanglement, hstab, hcyc, hnc]
    norm_num [blendLists, clampList, applyMasked, kernelSum, addLists, rollList,
      PBad, P₀, sparseEps, List.replicate_succ, min_def, max_def]
  rw [hs, hadv]
  norm_num

/-- C8 witness: the amended theorem at `s₀` with the identity
backend and zero blend weight, read off at entry 0. -/
theorem C8_stability_range_witness :
    0 ≤ (Sim.update P₀ s₀).stability.getD 0 0 ∧
      (Sim.update P₀ s₀).stability.getD 0 0 ≤ 1 := by
  have hthm := C8_stability_range P₀ s₀ (by norm_num [P₀]) (by norm_num [P₀])
    (fun c v h x hx => h x (by simpa [P₀] using hx))
    (by
      intro x hx
      have hx' : x ∈ [(0 : ℝ), 1, 0, 1, 0, 1, 0, 1] := hx
      simp only [List.mem_cons, List.not_mem_nil, or_false] at hx'
      rcases hx' with rfl | rfl | rfl | rfl | rfl | rfl | rfl | rfl <;> norm_num)
  by_cases h0 : 0 < (Sim.update P₀ s₀).stability.length
  · refine hthm _ ?_
    rw [List.getD_eq_getElem?_getD, List.getElem?_eq_getElem h0, Option.getD_some]
    exact List.getElem_mem h0
  · have hnil : (Sim.update P₀ s₀).stability = [] :=
      List.eq_nil_of_length_eq_zero (by omega)
    rw [hnil]
    norm_num [List.getD]

end CUF
